import Mathlib

/-!
# desertbit/event: the listener registry and dispatcher of `event.go`

A shallow embedding of `event.go`.  The struct `Event` becomes a record that is
passed explicitly, a Go panic becomes `Except.error`, a call of the recovery hook
and the spawning of a goroutine become entries of explicit lists, and the
`reflect` operations the file uses are modelled after the Go standard library on
a small universe of Go types and values.
-/

namespace EventPkg

/-! ## Go values and the part of package `reflect` that `event.go` uses -/

/-- Go types that may occur as declared parameter types of a listener. -/
inductive GoType where
  | int
  | int64
  | string
  | iface
  | slice (elem : GoType)
  deriving DecidableEq, Repr

/-- Dynamic Go values: what a non-nil `interface{}` holds, and what a valid
`reflect.Value` wraps.  A function value is identified by its closure pointer
`ptr`; `ins` are its fixed parameter types and `variadic` is the element type of
a trailing `...T` parameter.  `nilIface` and `nilSlice` are the zero values of
`interface{}` and of `[]T`. -/
inductive GoValue where
  | int (n : Int)
  | int64 (n : Int)
  | str (s : String)
  | nilIface
  | nilSlice (elem : GoType)
  | func (ptr : Nat) (ins : List GoType) (variadic : Option GoType)
  deriving DecidableEq, Repr

/-- The Go type `interface{}`: `none` is the nil interface. -/
abbrev Iface := Option GoValue

/-- The type `reflect.Value`, which `event.go` uses as the key type of `funcs`. -/
inductive RValue where
  | invalid
  | valid (v : GoValue)
  deriving DecidableEq, Repr

/-- The result type of `reflect.Value.Kind`. -/
inductive Kind where
  | Invalid
  | Int
  | Int64
  | String
  | Interface
  | Slice
  | Func
  deriving DecidableEq, Repr

/-- The error values that `event.go` creates: the package variable `ErrNotFunc`
and the results of `fmt.Errorf("%v", r)`. -/
inductive GoError where
  | ErrNotFunc
  | errorf (description : String)
  deriving DecidableEq, Repr

/-- The value carried by a Go panic.  It is never nil, as in Go 1.21 and later,
where the runtime turns `panic(nil)` into a `*runtime.PanicNilError`; the older
behaviour, where `recover()` returns nil after `panic(nil)`, is not modelled. -/
inductive PanicValue where
  | err (e : GoError)
  | msg (s : String)
  deriving DecidableEq, Repr

/-- Go: `reflect.ValueOf(i)`; the nil interface gives the zero `Value`.  Two
`Value`s are the same map key when they are the same `GoValue`: this is the
identity of the code for functions (the closure pointer); for a value that is
not a function the code compares the pointer to the boxed value, which this
model does not distinguish from the value. -/
def reflectValueOf : Iface → RValue
  | none => RValue.invalid
  | some v => RValue.valid v

/-- Go: `v.Kind()`. -/
def RValue.Kind : RValue → Kind
  | RValue.invalid => Kind.Invalid
  | RValue.valid (GoValue.int _) => Kind.Int
  | RValue.valid (GoValue.int64 _) => Kind.Int64
  | RValue.valid (GoValue.str _) => Kind.String
  | RValue.valid GoValue.nilIface => Kind.Interface
  | RValue.valid (GoValue.nilSlice _) => Kind.Slice
  | RValue.valid (GoValue.func _ _ _) => Kind.Func

/-- Go: `v.Interface()`, which panics on the zero `Value`. -/
def RValue.Interface : RValue → Except PanicValue Iface
  | RValue.invalid =>
      Except.error (PanicValue.msg "reflect: call of reflect.Value.Interface on zero Value")
  | RValue.valid v => Except.ok (some v)

/-- Go: `reflect.New(t).Elem()`, the zero value of type `t`. -/
def zeroValue : GoType → GoValue
  | GoType.int => GoValue.int 0
  | GoType.int64 => GoValue.int64 0
  | GoType.string => GoValue.str ""
  | GoType.iface => GoValue.nilIface
  | GoType.slice t => GoValue.nilSlice t

/-- Go: `fn.Type().In(i)`.  It panics when `fn` is not a function or when `i` is
not below `NumIn()`; the parameter of a variadic function at the last index has
the slice type. -/
def reflectTypeIn (fn : RValue) (i : Nat) : Except PanicValue GoType :=
  match fn with
  | RValue.invalid =>
      Except.error (PanicValue.msg "reflect: call of reflect.Value.Type on zero Value")
  | RValue.valid (GoValue.func _ ins variadic) =>
      match ins[i]?, variadic with
      | some t, _ => Except.ok t
      | none, some t =>
          if i = ins.length then Except.ok (GoType.slice t)
          else Except.error (PanicValue.msg "reflect: Func index out of bounds")
      | none, none => Except.error (PanicValue.msg "reflect: Func index out of bounds")
  | RValue.valid _ => Except.error (PanicValue.msg "reflect: In of non-func type")

/-- Go: the declared parameter types `In(0)`, ..., `In(NumIn()-1)` of a function
type with the fixed parameters `ins` and the variadic element type `variadic`. -/
def paramTypes (ins : List GoType) (variadic : Option GoType) : List GoType :=
  match variadic with
  | none => ins
  | some t => ins ++ [GoType.slice t]

/-- Go: `xt.AssignableTo(targ)` for the type `xt` of the value `v`.  Every type
is assignable to `interface{}`; otherwise the types must be identical. -/
def assignableTo : GoValue → GoType → Bool
  | _, GoType.iface => true
  | GoValue.int _, GoType.int => true
  | GoValue.int64 _, GoType.int64 => true
  | GoValue.str _, GoType.string => true
  | GoValue.nilSlice e, GoType.slice t => decide (e = t)
  | _, _ => false

/-- The behaviour of the function bodies of the program: `bodies ptr values` is
`none` when the function with closure pointer `ptr` returns normally on the
arguments `values`, and `some p` when it panics with `p`. -/
abbrev Bodies := Nat → List GoValue → Option PanicValue

/-- Go: `fn.Call(values)`.  The result is `none` when the call returns and
`some p` when it panics: on a value that is not a function, on too few or too
many arguments, on an argument not assignable to its parameter type, or inside
the function body. -/
def reflectCall (bodies : Bodies) (fn : RValue) (values : List GoValue) : Option PanicValue :=
  match fn with
  | RValue.valid (GoValue.func ptr ins variadic) =>
      if values.length < ins.length then
        some (PanicValue.msg "reflect: Call with too few input arguments")
      else if variadic.isNone && decide (ins.length < values.length) then
        some (PanicValue.msg "reflect: Call with too many input arguments")
      else if !((values.take ins.length).zip ins).all (fun p => assignableTo p.1 p.2) then
        some (PanicValue.msg "reflect: Call using value as wrong type")
      else
        match variadic with
        | some t =>
            if (values.drop ins.length).all (fun v => assignableTo v t) then bodies ptr values
            else some (PanicValue.msg "reflect: cannot use value as variadic element type in Call")
        | none => bodies ptr values
  | _ => some (PanicValue.msg "reflect: call of reflect.Value.Call on non-func Value")

/-- Go: the text `fmt` prints for a panic value under the verb `%v`. -/
def formatPanic : PanicValue → String
  | PanicValue.err GoError.ErrNotFunc => "listener value is not a function"
  | PanicValue.err (GoError.errorf s) => s
  | PanicValue.msg s => s

/-! ## The struct `Event` -/

/-- A call of the recovery hook `e.Recoverer(i, err)`: its two arguments.  The
second one has the Go interface type `error`, so it may be nil (`none`). -/
structure HookCall where
  listener : Iface
  err : Option GoError
  deriving DecidableEq, Repr

/-- The map type `map[reflect.Value]bool` of the field `funcs`. -/
abbrev Registry := AList (fun _ : RValue => Bool)

/-- The struct `Event`.  `Recoverer` tells whether the field `Recoverer` is
non-nil; what the hook does when it is called is not part of `event.go`, so a
call is recorded as a `HookCall`.  The mutex is not modelled: every operation
below is one critical section. -/
structure Event where
  Recoverer : Bool
  funcs : Registry

/-- Go: `New(r ...Recoverer)`; `r` tells whether a non-nil recoverer is passed. -/
def New (r : Bool) : Event :=
  { Recoverer := r, funcs := ∅ }

/-- Go: `addListener`.  A panic is `Except.error`; otherwise the new state and
the hook calls made.  After a call of the hook the code goes on to the map
assignment. -/
def addListener (e : Event) (listener : Iface) (once : Bool) :
    Except PanicValue (Event × List HookCall) :=
  let fn := reflectValueOf listener
  if fn.Kind ≠ Kind.Func then
    if e.Recoverer then
      Except.ok ({ e with funcs := e.funcs.insert fn once },
        [{ listener := listener, err := some GoError.ErrNotFunc }])
    else
      Except.error (PanicValue.err GoError.ErrNotFunc)
  else
    Except.ok ({ e with funcs := e.funcs.insert fn once }, [])

/-- Go: `On`. -/
def On (e : Event) (listener : Iface) : Except PanicValue (Event × List HookCall) :=
  addListener e listener false

/-- Go: `Once`. -/
def Once (e : Event) (listener : Iface) : Except PanicValue (Event × List HookCall) :=
  addListener e listener true

/-- Go: `Off`.  After a call of the hook the code goes on to the `delete`. -/
def Off (e : Event) (listener : Iface) : Except PanicValue (Event × List HookCall) :=
  let fn := reflectValueOf listener
  if fn.Kind ≠ Kind.Func then
    if e.Recoverer then
      Except.ok ({ e with funcs := e.funcs.erase fn },
        [{ listener := listener, err := some GoError.ErrNotFunc }])
    else
      Except.error (PanicValue.err GoError.ErrNotFunc)
  else
    Except.ok ({ e with funcs := e.funcs.erase fn }, [])

/-! ## Dispatch: `trigger`, `Trigger`, `TriggerWait` -/

/-- The order in which one `range` statement over a map produces the keys of the
map: Go leaves it unspecified, so it is an arbitrary rearrangement. -/
structure RangeOrder where
  order : List RValue → List RValue
  perm : ∀ l, (order l).Perm l

/-- The goroutine started by the `go` statement of `trigger`: the closure
parameter `fn` and the captured variables `wg` (whether it is non-nil) and
`arguments`. -/
structure Task where
  fn : RValue
  wait : Bool
  arguments : List Iface
  deriving DecidableEq, Repr

/-- The observable steps of a dispatch, in program order of the thread that
performs them. -/
inductive Action where
  | wgAdd (n : Int)
  | spawn (t : Task)
  | wgWait
  | call (fn : RValue) (values : List GoValue)
  | hook (c : HookCall)
  | wgDone
  | crash (p : PanicValue)
  deriving DecidableEq, Repr

/-- Go: the loop `for fn, once := range e.funcs` of `trigger`.  The keys come in
the order of the first argument; a key that is no longer in the map when its
turn comes is not produced.  The result is the map after the loop and the
actions performed so far. -/
def rangeFuncs (wait : Bool) (arguments : List Iface) :
    List RValue → Registry → List Action → Registry × List Action
  | [], funcs, acts => (funcs, acts)
  | fn :: rest, funcs, acts =>
      match funcs.lookup fn with
      | none => rangeFuncs wait arguments rest funcs acts
      | some once =>
          rangeFuncs wait arguments rest (if once then funcs.erase fn else funcs)
            (acts ++ [Action.spawn { fn := fn, wait := wait, arguments := arguments }])

/-- Go: `trigger`; `wg` tells whether the pointer `wg` is non-nil.  The result
is the state after the call and the actions of the calling thread. -/
def trigger (e : Event) (ro : RangeOrder) (wg : Bool) (arguments : List Iface) :
    Event × List Action :=
  let acts : List Action := if wg then [Action.wgAdd e.funcs.keys.length] else []
  let r := rangeFuncs wg arguments (ro.order e.funcs.keys) e.funcs acts
  ({ e with funcs := r.1 }, r.2)

/-- Go: `Trigger`. -/
def Trigger (e : Event) (ro : RangeOrder) (arguments : List Iface) : Event × List Action :=
  trigger e ro false arguments

/-- Go: `TriggerWait`: `trigger` with a fresh wait group, then `wg.Wait()`. -/
def TriggerWait (e : Event) (ro : RangeOrder) (arguments : List Iface) : Event × List Action :=
  let r := trigger e ro true arguments
  (r.1, r.2 ++ [Action.wgWait])

/-- The goroutines that a list of actions starts. -/
def spawned : List Action → List Task
  | [] => []
  | Action.spawn t :: rest => t :: spawned rest
  | _ :: rest => spawned rest

/-- Go: the loop that fills `values` in the goroutine of `trigger`, from index
`i` on, with `values` built so far. -/
def bindFrom (fn : RValue) : Nat → List Iface → List GoValue → Except PanicValue (List GoValue)
  | _, [], values => Except.ok values
  | i, none :: rest, values =>
      match reflectTypeIn fn i with
      | Except.error p => Except.error p
      | Except.ok t => bindFrom fn (i + 1) rest (values ++ [zeroValue t])
  | i, some v :: rest, values => bindFrom fn (i + 1) rest (values ++ [v])

/-- Go: the whole loop `for i := 0; i < len(arguments); i++` with `values`
initially nil. -/
def bindArguments (fn : RValue) (arguments : List Iface) : Except PanicValue (List GoValue) :=
  bindFrom fn 0 arguments []

/-- Go: the body of the goroutine, the statements after the two `defer`s: the
actions it performs and the panic it ends with, if any. -/
def invoke (bodies : Bodies) (t : Task) : List Action × Option PanicValue :=
  match bindArguments t.fn t.arguments with
  | Except.error p => ([], some p)
  | Except.ok values => ([Action.call t.fn values], reflectCall bodies t.fn values)

/-- Go: the deferred function that recovers a panic, run when the body has ended
with `panicking`.  A panic of `fn.Interface()` inside it is not recovered. -/
def recoverDeferred (t : Task) (panicking : Option PanicValue) :
    List Action × Option PanicValue :=
  match panicking with
  | none => ([], none)
  | some r =>
      match t.fn.Interface with
      | Except.error p => ([], some p)
      | Except.ok i =>
          ([Action.hook { listener := i, err := some (GoError.errorf (formatPanic r)) }], none)

/-- Go: the goroutine `go func(fn reflect.Value) {...}(fn)` as the list of its
actions.  `recoverer` is `e.Recoverer != nil`.  The deferred calls run in
reverse order of their `defer` statements: first the recovering function, then
`wg.Done()`; a panic that is still active afterwards ends the program. -/
def goroutine (recoverer : Bool) (bodies : Bodies) (t : Task) : List Action :=
  let body := invoke bodies t
  let recovered := if recoverer then recoverDeferred t body.2 else ([], body.2)
  let done : List Action := if t.wait then [Action.wgDone] else []
  let ending : List Action :=
    match recovered.2 with
    | none => []
    | some p => [Action.crash p]
  body.1 ++ recovered.1 ++ done ++ ending

/-! ## The threads of one dispatch -/

/-- The state of one dispatch while its goroutines run: the counter of the
`sync.WaitGroup`, the actions the calling thread has still to perform, for
every goroutine spawned so far the actions it has still to perform, the
actions performed so far by all threads, and the panic that has ended the
program, if any. -/
structure Dispatch where
  counter : Int
  caller : List Action
  goroutines : List (List Action)
  log : List Action
  crashed : Option PanicValue
  deriving DecidableEq, Repr

/-- The state in which a call of `Trigger` or `TriggerWait` with the actions
`acts` starts: `var wg sync.WaitGroup` has the counter zero. -/
def dispatch (acts : List Action) : Dispatch :=
  { counter := 0, caller := acts, goroutines := [], log := [], crashed := none }

/-- The next action of goroutine `i`, and the goroutines after it. -/
def advance : Nat → List (List Action) → Option (Action × List (List Action))
  | _, [] => none
  | 0, [] :: _ => none
  | 0, (a :: rest) :: gs => some (a, rest :: gs)
  | i + 1, g :: gs =>
      match advance i gs with
      | none => none
      | some (a, gs2) => some (a, g :: gs2)

/-- What an action other than a `go` statement does to the state: `wg.Add(n)`
and `wg.Done()` change the counter, an unrecovered panic ends the program. -/
def effect (a : Action) (d : Dispatch) : Dispatch :=
  match a with
  | Action.wgAdd n => { d with counter := d.counter + n }
  | Action.wgDone => { d with counter := d.counter - 1 }
  | Action.crash p => { d with crashed := some p }
  | _ => d

/-- One step of thread `thread`: 0 is the calling thread, `i + 1` is goroutine
`i`.  `wg.Wait()` passes only when the counter is zero, a `go` statement of the
calling thread starts a goroutine, and nothing runs after the program has
ended. -/
def perform (recoverer : Bool) (bodies : Bodies) (d : Dispatch) (thread : Nat) : Dispatch :=
  match d.crashed with
  | some _ => d
  | none =>
      match thread with
      | 0 =>
          match d.caller with
          | [] => d
          | Action.wgWait :: rest =>
              if d.counter = 0 then { d with caller := rest, log := d.log ++ [Action.wgWait] }
              else d
          | Action.spawn t :: rest =>
              { d with
                caller := rest
                goroutines := d.goroutines ++ [goroutine recoverer bodies t]
                log := d.log ++ [Action.spawn t] }
          | a :: rest => effect a { d with caller := rest, log := d.log ++ [a] }
      | i + 1 =>
          match advance i d.goroutines with
          | none => d
          | some (a, gs) => effect a { d with goroutines := gs, log := d.log ++ [a] }

/-- The state after the steps of a schedule, the list of the threads that take
the steps, in their order. -/
def runSchedule (recoverer : Bool) (bodies : Bodies) (d : Dispatch) (schedule : List Nat) :
    Dispatch :=
  schedule.foldl (perform recoverer bodies) d

/-- Whether a goroutine with the remaining actions `g` has still to make its
listener call, a hook call or its `wg.Done()`. -/
def unfinished (g : List Action) : Bool :=
  g.any (fun a =>
    match a with
    | Action.call _ _ => true
    | Action.hook _ => true
    | Action.wgDone => true
    | _ => false)

/-- Whether the action is a listener call or a hook call. -/
def Action.isCallOrHook : Action → Bool
  | Action.call _ _ => true
  | Action.hook _ => true
  | _ => false

/-- Whether the action is the end of the program by an unrecovered panic. -/
def Action.isCrash : Action → Bool
  | Action.crash _ => true
  | _ => false

/-- The hook calls among a list of actions. -/
def hookCalls : List Action → List HookCall
  | [] => []
  | Action.hook c :: rest => c :: hookCalls rest
  | _ :: rest => hookCalls rest

/-- The hook calls that the goroutines of a list of tasks make, task by task. -/
def taskHookCalls (recoverer : Bool) (bodies : Bodies) : List Task → List HookCall
  | [] => []
  | t :: ts => hookCalls (goroutine recoverer bodies t) ++ taskHookCalls recoverer bodies ts

/-- Whether the dispatch is over: the calling thread has returned and every
goroutine has performed all its actions. -/
def Dispatch.finished (d : Dispatch) : Bool :=
  d.caller.isEmpty && d.goroutines.all List.isEmpty

/-- The weight that counts the calls of the hook with the arguments `c`. -/
def hookWeight (c : HookCall) : Action → Int
  | Action.hook c2 => if c2 = c then 1 else 0
  | _ => 0

/-- The sum of the weights `w` of a list of actions. -/
def weight (w : Action → Int) (acts : List Action) : Int :=
  (acts.map w).sum

/-- The weight of the goroutines that a list of actions has still to spawn. -/
def spawnWeight (recoverer : Bool) (bodies : Bodies) (w : Action → Int) : List Action → Int
  | [] => 0
  | Action.spawn t :: rest =>
      weight w (goroutine recoverer bodies t) + spawnWeight recoverer bodies w rest
  | _ :: rest => spawnWeight recoverer bodies w rest

/-- The weight of everything that is still to be performed in a state. -/
def remaining (recoverer : Bool) (bodies : Bodies) (w : Action → Int) (d : Dispatch) : Int :=
  weight w d.caller + spawnWeight recoverer bodies w d.caller +
    (d.goroutines.map (weight w)).sum

/-- The change of the wait group counter that an action makes. -/
def counterChange : Action → Int
  | Action.wgAdd n => n
  | Action.wgDone => -1
  | _ => 0

/-! ## Sequences of calls on one `Event` -/

/-- A call of one of the five exported methods. -/
inductive Op where
  | On (listener : Iface)
  | Once (listener : Iface)
  | Off (listener : Iface)
  | Trigger (ro : RangeOrder) (arguments : List Iface)
  | TriggerWait (ro : RangeOrder) (arguments : List Iface)

/-- What one call did: the panic it raised, the hook calls it made itself, and
the actions of a trigger. -/
structure Outcome where
  panic : Option PanicValue
  hookCalls : List HookCall
  actions : List Action

/-- The outcome of `On`, `Once` or `Off`; a panic leaves the `Event` as it was. -/
def registration (e : Event) (r : Except PanicValue (Event × List HookCall)) :
    Event × Outcome :=
  match r with
  | Except.error p => (e, { panic := some p, hookCalls := [], actions := [] })
  | Except.ok (e2, calls) => (e2, { panic := none, hookCalls := calls, actions := [] })

/-- One call on the state `e`. -/
def step (e : Event) : Op → Event × Outcome
  | Op.On l => registration e (On e l)
  | Op.Once l => registration e (Once e l)
  | Op.Off l => registration e (Off e l)
  | Op.Trigger ro arguments =>
      ((Trigger e ro arguments).1,
        { panic := none, hookCalls := [], actions := (Trigger e ro arguments).2 })
  | Op.TriggerWait ro arguments =>
      ((TriggerWait e ro arguments).1,
        { panic := none, hookCalls := [], actions := (TriggerWait e ro arguments).2 })

/-- A sequence of calls, each on the state the previous one left; a caller that
recovers from the panic of a call goes on with the next one. -/
def run (e : Event) : List Op → Event × List Outcome
  | [] => (e, [])
  | op :: ops => ((run (step e op).1 ops).1, (step e op).2 :: (run (step e op).1 ops).2)

/-- Whether the call is `Trigger` or `TriggerWait`. -/
def Op.isTrigger : Op → Bool
  | Op.Trigger _ _ => true
  | Op.TriggerWait _ _ => true
  | _ => false

/-- Whether the call is `On(l)` or `Once(l)` with a value `l` whose map key is `fn`. -/
def Op.registers (fn : RValue) : Op → Bool
  | Op.On l => decide (reflectValueOf l = fn)
  | Op.Once l => decide (reflectValueOf l = fn)
  | _ => false

/-- Whether the call is `Off(l)` or `Once(l)` with a value `l` whose map key is `fn`. -/
def Op.removesOrOnce (fn : RValue) : Op → Bool
  | Op.Off l => decide (reflectValueOf l = fn)
  | Op.Once l => decide (reflectValueOf l = fn)
  | _ => false

/-- Whether the call is `On`, `Once` or `Off` with a function as its argument. -/
def Op.registersFunc : Op → Bool
  | Op.On l => decide ((reflectValueOf l).Kind = Kind.Func)
  | Op.Once l => decide ((reflectValueOf l).Kind = Kind.Func)
  | Op.Off l => decide ((reflectValueOf l).Kind = Kind.Func)
  | _ => false

/-- Whether the call is `On(l)`, `Once(l)` or `Off(l)` with a value `l` whose map
key is `fn`. -/
def Op.touches (fn : RValue) : Op → Bool
  | Op.On l => decide (reflectValueOf l = fn)
  | Op.Once l => decide (reflectValueOf l = fn)
  | Op.Off l => decide (reflectValueOf l = fn)
  | _ => false

/-- The registry of the specification: a map from listener identity to the
once-flag. -/
abbrev SpecRegistry := RValue → Option Bool

/-- The registry operations as the specification words them: `On(f)` sets the
entry of `f` to false, `Once(f)` sets it to true, each overwriting an earlier
flag, and `Off(f)` erases the entry of `f`. -/
def specApply (m : SpecRegistry) : Op → SpecRegistry
  | Op.On l => Function.update m (reflectValueOf l) (some false)
  | Op.Once l => Function.update m (reflectValueOf l) (some true)
  | Op.Off l => Function.update m (reflectValueOf l) none
  | _ => m

/-- The fold of a sequence of registry operations over the registry of the
specification. -/
def specFold (m : SpecRegistry) (ops : List Op) : SpecRegistry :=
  ops.foldl specApply m

/-- The registry of the specification that a map of the code stands for. -/
def abstraction (funcs : Registry) : SpecRegistry :=
  fun k => funcs.lookup k

/-- The listeners for which a list of actions spawns a goroutine. -/
def scheduled (acts : List Action) : List RValue :=
  (spawned acts).map Task.fn

/-- A listener function of type `func(int)`, with closure pointer 2. -/
def intListener : Iface :=
  some (GoValue.func 2 [GoType.int] none)

/-- The weight that counts the occurrences of the action `a`. -/
def occurrence (a : Action) : Action → Int :=
  fun b => if b = a then 1 else 0

/-- The listener `f` of `TestEventArgs`, of type
`func(i int64, s string, n interface{})`. -/
def argsListener : RValue :=
  RValue.valid (GoValue.func 1 [GoType.int64, GoType.string, GoType.iface] none)

/-- The arguments `int64(2), "Hallo Welt", nil` of `TestEventArgs`. -/
def argsOfTest : List Iface :=
  [some (GoValue.int64 2), some (GoValue.str "Hallo Welt"), none]

/-- A listener function without parameters, with closure pointer `i`. -/
def plainListener (i : Nat) : Iface :=
  some (GoValue.func i [] none)

/-- The state of `TestEventRecoverer` before its trigger, with a second
listener: a recovery hook is set, and a function without parameters and a
function with one `int` parameter are registered by `On`. -/
def recovererEvent : Event :=
  (run (New true) [Op.On (plainListener 1), Op.On intListener]).1

/-- The calls `New(hook)`, `On(nil)`, `On(f)`, `On(g)` for a function `f`
without parameters and a function `g` with one `int` parameter. -/
def zeroKeyCalls : List Op :=
  [Op.On none, Op.On (plainListener 1), Op.On intListener]

/-- The state after `zeroKeyCalls` on a new `Event` with a recovery hook. -/
def zeroKeyEvent : Event :=
  (run (New true) zeroKeyCalls).1

/-- The registrations of `TestEvent`: three `On` listeners and two `Once`
listeners, five different functions. -/
def threeOnTwoOnce : List Op :=
  [Op.On (plainListener 1), Op.On (plainListener 2), Op.On (plainListener 3),
    Op.Once (plainListener 4), Op.Once (plainListener 5)]

/-- The range order that produces the keys in the order of the list given. -/
def listOrder : RangeOrder :=
  { order := fun l => l, perm := fun l => List.Perm.refl l }

/-- The range order that produces the keys in reverse order. -/
def reverseOrder : RangeOrder :=
  { order := List.reverse, perm := fun l => List.reverse_perm l }

/-! ## The range loop of `trigger` -/

theorem spawned_append (xs ys : List Action) : spawned (xs ++ ys) = spawned xs ++ spawned ys := by
  induction xs with
  | nil => rfl
  | cons a xs ih => cases a <;> simp [spawned, ih]

theorem spawned_map_spawn (ts : List Task) : spawned (ts.map Action.spawn) = ts := by
  induction ts with
  | nil => rfl
  | cons t ts ih => simp [spawned, ih]

/-- The loop visits every key of its order exactly once when the order has no
repetition and lists only keys of the map: it spawns one goroutine per key, in
that order, and deletes exactly the entries whose flag is true. -/
theorem rangeFuncs_spec (wait : Bool) (arguments : List Iface) :
    ∀ (l : List RValue) (funcs : Registry) (acts : List Action),
      l.Nodup → (∀ k ∈ l, k ∈ funcs) →
      (rangeFuncs wait arguments l funcs acts).2 =
          acts ++ l.map (fun fn =>
            Action.spawn { fn := fn, wait := wait, arguments := arguments }) ∧
        ∀ k, (rangeFuncs wait arguments l funcs acts).1.lookup k =
          if k ∈ l ∧ funcs.lookup k = some true then none else funcs.lookup k := by
  intro l
  induction l with
  | nil => intro funcs acts _ _; simp [rangeFuncs]
  | cons fn rest ih =>
    intro funcs acts hnd hmem
    have hfn : fn ∈ funcs := hmem fn (List.mem_cons_self _ _)
    have hnot : fn ∉ rest := (List.nodup_cons.mp hnd).1
    have hnd2 : rest.Nodup := (List.nodup_cons.mp hnd).2
    obtain ⟨once, honce⟩ := Option.isSome_iff_exists.mp (AList.lookup_isSome.mpr hfn)
    cases once with
    | true =>
      have hmem2 : ∀ k ∈ rest, k ∈ funcs.erase fn := by
        intro k hk
        refine AList.mem_erase.mpr ⟨?_, hmem k (List.mem_cons_of_mem _ hk)⟩
        rintro rfl
        exact hnot hk
      obtain ⟨h1, h2⟩ := ih (funcs.erase fn)
        (acts ++ [Action.spawn { fn := fn, wait := wait, arguments := arguments }]) hnd2 hmem2
      simp only [rangeFuncs, honce, if_true]
      refine ⟨by simp [h1], ?_⟩
      intro k
      rw [h2 k]
      by_cases hk : k = fn
      · subst hk
        simp [hnot, honce, AList.lookup_erase]
      · simp [hk, AList.lookup_erase_ne hk]
    | false =>
      obtain ⟨h1, h2⟩ := ih funcs
        (acts ++ [Action.spawn { fn := fn, wait := wait, arguments := arguments }]) hnd2
        (fun k hk => hmem k (List.mem_cons_of_mem _ hk))
      simp only [rangeFuncs, honce]
      refine ⟨by simp [h1], ?_⟩
      intro k
      have h2k := h2 k
      simp only [Bool.false_eq_true, if_false] at h2k ⊢
      rw [h2k]
      by_cases hk : k = fn
      · subst hk
        simp [hnot, honce]
      · simp [hk]

theorem order_nodup (e : Event) (ro : RangeOrder) : (ro.order e.funcs.keys).Nodup :=
  (ro.perm e.funcs.keys).nodup_iff.mpr e.funcs.keys_nodup

theorem order_mem (e : Event) (ro : RangeOrder) (k : RValue) :
    k ∈ ro.order e.funcs.keys ↔ k ∈ e.funcs :=
  (ro.perm e.funcs.keys).mem_iff.trans AList.mem_keys.symm

/-- The goroutines that `trigger` spawns: one per key of the map, in range order. -/
theorem trigger_spawned (e : Event) (ro : RangeOrder) (wg : Bool) (arguments : List Iface) :
    spawned (trigger e ro wg arguments).2 =
      (ro.order e.funcs.keys).map
        (fun fn => { fn := fn, wait := wg, arguments := arguments }) := by
  have h := (rangeFuncs_spec wg arguments (ro.order e.funcs.keys) e.funcs
    (if wg then [Action.wgAdd e.funcs.keys.length] else []) (order_nodup e ro)
    (fun k hk => (order_mem e ro k).mp hk)).1
  simp only [trigger]
  rw [h, spawned_append]
  have hmap : (ro.order e.funcs.keys).map
      (fun fn => Action.spawn { fn := fn, wait := wg, arguments := arguments }) =
      ((ro.order e.funcs.keys).map
        (fun fn => ({ fn := fn, wait := wg, arguments := arguments } : Task))).map
          Action.spawn := by
    simp [List.map_map, Function.comp]
  rw [hmap, spawned_map_spawn]
  cases wg <;> simp [spawned]

/-- The map after `trigger`: the entries with flag true are gone, all others are
as before. -/
theorem trigger_lookup (e : Event) (ro : RangeOrder) (wg : Bool) (arguments : List Iface)
    (k : RValue) :
    (trigger e ro wg arguments).1.funcs.lookup k =
      if e.funcs.lookup k = some true then none else e.funcs.lookup k := by
  have h := (rangeFuncs_spec wg arguments (ro.order e.funcs.keys) e.funcs
    (if wg then [Action.wgAdd e.funcs.keys.length] else []) (order_nodup e ro)
    (fun k hk => (order_mem e ro k).mp hk)).2 k
  simp only [trigger]
  rw [h]
  by_cases hk : k ∈ e.funcs
  · simp [(order_mem e ro k).mpr hk]
  · simp [AList.lookup_eq_none.mpr hk]

theorem trigger_Recoverer (e : Event) (ro : RangeOrder) (wg : Bool) (arguments : List Iface) :
    (trigger e ro wg arguments).1.Recoverer = e.Recoverer := rfl

/-- The keys of the map after the loop, in the order they had before. -/
theorem rangeFuncs_keys (wait : Bool) (arguments : List Iface) :
    ∀ (l : List RValue) (funcs : Registry) (acts : List Action),
      l.Nodup → (∀ k ∈ l, k ∈ funcs) →
      (rangeFuncs wait arguments l funcs acts).1.keys =
        funcs.keys.filter
          (fun k => !(decide (k ∈ l) && decide (funcs.lookup k = some true))) := by
  intro l
  induction l with
  | nil => intro funcs acts _ _; simp [rangeFuncs]
  | cons fn rest ih =>
    intro funcs acts hnd hmem
    have hfn : fn ∈ funcs := hmem fn (List.mem_cons_self _ _)
    have hnot : fn ∉ rest := (List.nodup_cons.mp hnd).1
    have hnd2 : rest.Nodup := (List.nodup_cons.mp hnd).2
    obtain ⟨once, honce⟩ := Option.isSome_iff_exists.mp (AList.lookup_isSome.mpr hfn)
    cases once with
    | true =>
      have hmem2 : ∀ k ∈ rest, k ∈ funcs.erase fn := by
        intro k hk
        refine AList.mem_erase.mpr ⟨?_, hmem k (List.mem_cons_of_mem _ hk)⟩
        rintro rfl
        exact hnot hk
      simp only [rangeFuncs, honce, if_true]
      rw [ih (funcs.erase fn) _ hnd2 hmem2, AList.keys_erase,
        List.Nodup.erase_eq_filter funcs.keys_nodup, List.filter_filter]
      apply List.filter_congr
      intro k _
      by_cases hk : k = fn
      · subst hk
        simp [honce]
      · simp [hk, AList.lookup_erase_ne hk]
    | false =>
      simp only [rangeFuncs, honce]
      simp only [Bool.false_eq_true, if_false]
      rw [ih funcs _ hnd2 (fun k hk => hmem k (List.mem_cons_of_mem _ hk))]
      apply List.filter_congr
      intro k _
      by_cases hk : k = fn
      · subst hk
        simp [honce, hnot]
      · simp [hk]

/-- The keys of the map after `trigger`: those whose flag was not true, in the
order they had before. -/
theorem trigger_keys (e : Event) (ro : RangeOrder) (wg : Bool) (arguments : List Iface) :
    (trigger e ro wg arguments).1.funcs.keys =
      e.funcs.keys.filter (fun k => !decide (e.funcs.lookup k = some true)) := by
  simp only [trigger]
  rw [rangeFuncs_keys wg arguments (ro.order e.funcs.keys) e.funcs _ (order_nodup e ro)
    (fun k hk => (order_mem e ro k).mp hk)]
  apply List.filter_congr
  intro k hk
  simp [(order_mem e ro k).mpr (AList.mem_keys.mpr hk)]

theorem spawned_TriggerWait (e : Event) (ro : RangeOrder) (arguments : List Iface) :
    spawned (TriggerWait e ro arguments).2 =
      (ro.order e.funcs.keys).map
        (fun fn => { fn := fn, wait := true, arguments := arguments }) := by
  simp [TriggerWait, spawned_append, spawned, trigger_spawned]

theorem spawned_Trigger (e : Event) (ro : RangeOrder) (arguments : List Iface) :
    spawned (Trigger e ro arguments).2 =
      (ro.order e.funcs.keys).map
        (fun fn => { fn := fn, wait := false, arguments := arguments }) := by
  simp [Trigger, trigger_spawned]

theorem scheduled_trigger (e : Event) (ro : RangeOrder) (wg : Bool) (arguments : List Iface) :
    scheduled (trigger e ro wg arguments).2 = ro.order e.funcs.keys := by
  simp only [scheduled, trigger_spawned, List.map_map]
  exact List.map_id _

theorem scheduled_Trigger (e : Event) (ro : RangeOrder) (arguments : List Iface) :
    scheduled (Trigger e ro arguments).2 = ro.order e.funcs.keys :=
  scheduled_trigger e ro false arguments

theorem scheduled_TriggerWait (e : Event) (ro : RangeOrder) (arguments : List Iface) :
    scheduled (TriggerWait e ro arguments).2 = ro.order e.funcs.keys := by
  simp only [scheduled, spawned_TriggerWait, List.map_map]
  exact List.map_id _

theorem count_order (e : Event) (ro : RangeOrder) (fn : RValue) :
    (ro.order e.funcs.keys).count fn = if fn ∈ e.funcs then 1 else 0 := by
  rw [(ro.perm e.funcs.keys).count_eq]
  by_cases h : fn ∈ e.funcs
  · simp [h, List.count_eq_one_of_mem e.funcs.keys_nodup (AList.mem_keys.mp h)]
  · simp [h, List.count_eq_zero_of_not_mem (fun hk => h (AList.mem_keys.mpr hk))]

theorem length_order (ro : RangeOrder) (l : List RValue) : (ro.order l).length = l.length :=
  (ro.perm l).length_eq

theorem TriggerWait_keys (e : Event) (ro : RangeOrder) (arguments : List Iface) :
    (TriggerWait e ro arguments).1.funcs.keys =
      e.funcs.keys.filter (fun k => !decide (e.funcs.lookup k = some true)) :=
  trigger_keys e ro true arguments

theorem run_cons (e : Event) (op : Op) (ops : List Op) :
    run e (op :: ops) =
      ((run (step e op).1 ops).1, (step e op).2 :: (run (step e op).1 ops).2) := rfl

theorem run_append (e : Event) (xs ys : List Op) :
    run e (xs ++ ys) =
      ((run (run e xs).1 ys).1, (run e xs).2 ++ (run (run e xs).1 ys).2) := by
  induction xs generalizing e with
  | nil => simp [run]
  | cons x xs ih => simp [run, ih]

/-! ## What one call does to the map -/

theorem addListener_lookup (e : Event) (l : Iface) (once : Bool) (k : RValue) :
    (registration e (addListener e l once)).1.funcs.lookup k =
      if (reflectValueOf l).Kind ≠ Kind.Func ∧ e.Recoverer = false then e.funcs.lookup k
      else if k = reflectValueOf l then some once else e.funcs.lookup k := by
  unfold addListener
  by_cases hk : (reflectValueOf l).Kind = Kind.Func
  · by_cases hkey : k = reflectValueOf l
    · subst hkey
      simp [hk, registration, AList.lookup_insert]
    · simp [hk, registration, hkey, AList.lookup_insert_ne hkey]
  · cases hr : e.Recoverer
    · simp [hk, hr, registration]
    · by_cases hkey : k = reflectValueOf l
      · subst hkey
        simp [hk, hr, registration, AList.lookup_insert]
      · simp [hk, hr, registration, hkey, AList.lookup_insert_ne hkey]

theorem Off_lookup (e : Event) (l : Iface) (k : RValue) :
    (registration e (Off e l)).1.funcs.lookup k =
      if (reflectValueOf l).Kind ≠ Kind.Func ∧ e.Recoverer = false then e.funcs.lookup k
      else if k = reflectValueOf l then none else e.funcs.lookup k := by
  unfold Off
  by_cases hk : (reflectValueOf l).Kind = Kind.Func
  · by_cases hkey : k = reflectValueOf l
    · subst hkey
      simp [hk, registration, AList.lookup_erase]
    · simp [hk, registration, hkey, AList.lookup_erase_ne hkey]
  · cases hr : e.Recoverer
    · simp [hk, hr, registration]
    · by_cases hkey : k = reflectValueOf l
      · subst hkey
        simp [hk, hr, registration, AList.lookup_erase]
      · simp [hk, hr, registration, hkey, AList.lookup_erase_ne hkey]

theorem registration_actions (e : Event) (r : Except PanicValue (Event × List HookCall)) :
    (registration e r).2.actions = [] := by
  cases r with
  | error p => rfl
  | ok v => rfl

/-- A trigger call spawns a goroutine for `fn` once if `fn` is a key of the map
and not at all otherwise. -/
theorem step_trigger_count (e : Event) (op : Op) (h : op.isTrigger = true) (fn : RValue) :
    (scheduled (step e op).2.actions).count fn = if fn ∈ e.funcs then 1 else 0 := by
  cases op with
  | On l => simp [Op.isTrigger] at h
  | Once l => simp [Op.isTrigger] at h
  | Off l => simp [Op.isTrigger] at h
  | Trigger ro a => simp only [step, scheduled_Trigger, count_order]
  | TriggerWait ro a => simp only [step, scheduled_TriggerWait, count_order]

theorem step_trigger_lookup (e : Event) (op : Op) (h : op.isTrigger = true) (k : RValue) :
    (step e op).1.funcs.lookup k =
      if e.funcs.lookup k = some true then none else e.funcs.lookup k := by
  cases op with
  | On l => simp [Op.isTrigger] at h
  | Once l => simp [Op.isTrigger] at h
  | Off l => simp [Op.isTrigger] at h
  | Trigger ro a => exact trigger_lookup e ro false a k
  | TriggerWait ro a => exact trigger_lookup e ro true a k

theorem step_not_trigger_count (e : Event) (op : Op) (h : op.isTrigger = false) (fn : RValue) :
    (scheduled (step e op).2.actions).count fn = 0 := by
  cases op with
  | On l => simp [step, registration_actions, scheduled, spawned]
  | Once l => simp [step, registration_actions, scheduled, spawned]
  | Off l => simp [step, registration_actions, scheduled, spawned]
  | Trigger ro a => simp [Op.isTrigger] at h
  | TriggerWait ro a => simp [Op.isTrigger] at h

/-! ## Once-listeners -/

theorem run_replicate_Once_lookup (f : Iface) (hf : (reflectValueOf f).Kind = Kind.Func) :
    ∀ (n : Nat) (e : Event),
      (run e (List.replicate (n + 1) (Op.Once f))).1.funcs.lookup (reflectValueOf f) =
        some true := by
  intro n
  induction n with
  | zero =>
    intro e
    simp only [List.replicate, run, step, Once]
    rw [addListener_lookup]
    simp [hf]
  | succ n ih =>
    intro e
    rw [List.replicate_succ]
    simp only [run]
    exact ih _

theorem run_replicate_Once_counts (f : Iface) (fn : RValue) :
    ∀ (n : Nat) (e : Event),
      (run e (List.replicate n (Op.Once f))).2.map (fun o => (scheduled o.actions).count fn) =
        List.replicate n 0 := by
  intro n
  induction n with
  | zero => intro e; simp [run]
  | succ n ih =>
    intro e
    rw [List.replicate_succ]
    simp only [run, List.map, List.replicate_succ]
    rw [ih, step_not_trigger_count e (Op.Once f) rfl]

/-- Triggers never schedule a value that is not a key of the map, and they do
not make it one. -/
theorem run_triggers_absent (fn : RValue) :
    ∀ (ts : List Op) (e : Event), (∀ op ∈ ts, op.isTrigger = true) → fn ∉ e.funcs →
      (run e ts).2.map (fun o => (scheduled o.actions).count fn) =
          List.replicate ts.length 0 ∧
        ∀ m, fn ∉ (run e (ts.take m)).1.funcs := by
  intro ts
  induction ts with
  | nil => intro e _ h; simp [run, h]
  | cons t ts ih =>
    intro e hts h
    have ht : t.isTrigger = true := hts t (List.mem_cons_self _ _)
    have h2 : fn ∉ (step e t).1.funcs := by
      rw [← AList.lookup_eq_none, step_trigger_lookup e t ht, AList.lookup_eq_none.mpr h]
      simp
    obtain ⟨ih1, ih2⟩ := ih (step e t).1 (fun op hop => hts op (List.mem_cons_of_mem _ hop)) h2
    constructor
    · simp only [run, List.map, List.length_cons, List.replicate_succ]
      rw [ih1, step_trigger_count e t ht, if_neg h]
    · intro m
      cases m with
      | zero => simpa [run] using h
      | succ m => simpa [run] using ih2 m

/-! ## Listeners that stay registered, and listeners that stay away -/

theorem step_lookup_On (e : Event) (l : Iface) (k : RValue) :
    (step e (Op.On l)).1.funcs.lookup k =
      if (reflectValueOf l).Kind ≠ Kind.Func ∧ e.Recoverer = false then e.funcs.lookup k
      else if k = reflectValueOf l then some false else e.funcs.lookup k :=
  addListener_lookup e l false k

theorem step_lookup_Once (e : Event) (l : Iface) (k : RValue) :
    (step e (Op.Once l)).1.funcs.lookup k =
      if (reflectValueOf l).Kind ≠ Kind.Func ∧ e.Recoverer = false then e.funcs.lookup k
      else if k = reflectValueOf l then some true else e.funcs.lookup k :=
  addListener_lookup e l true k

theorem step_lookup_Off (e : Event) (l : Iface) (k : RValue) :
    (step e (Op.Off l)).1.funcs.lookup k =
      if (reflectValueOf l).Kind ≠ Kind.Func ∧ e.Recoverer = false then e.funcs.lookup k
      else if k = reflectValueOf l then none else e.funcs.lookup k :=
  Off_lookup e l k

/-- An entry with flag false survives every call that is not `Off` or `Once` of
the same listener. -/
theorem step_keeps_false (e : Event) (fn : RValue) (op : Op)
    (h : e.funcs.lookup fn = some false) (hop : op.removesOrOnce fn = false) :
    (step e op).1.funcs.lookup fn = some false := by
  cases op with
  | On l =>
    rw [step_lookup_On]
    split_ifs <;> simp [h]
  | Once l =>
    have hne : fn ≠ reflectValueOf l := by
      intro heq
      simp [Op.removesOrOnce, heq] at hop
    rw [step_lookup_Once]
    split_ifs <;> simp [h]
  | Off l =>
    have hne : fn ≠ reflectValueOf l := by
      intro heq
      simp [Op.removesOrOnce, heq] at hop
    rw [step_lookup_Off]
    split_ifs <;> simp [h]
  | Trigger ro a =>
    rw [step_trigger_lookup e (Op.Trigger ro a) rfl, h]
    simp
  | TriggerWait ro a =>
    rw [step_trigger_lookup e (Op.TriggerWait ro a) rfl, h]
    simp

/-- A value that is not a key stays away under every call that is not `On` or
`Once` of the same listener. -/
theorem step_keeps_absent (e : Event) (fn : RValue) (op : Op)
    (h : e.funcs.lookup fn = none) (hop : op.registers fn = false) :
    (step e op).1.funcs.lookup fn = none := by
  cases op with
  | On l =>
    have hne : fn ≠ reflectValueOf l := by
      intro heq
      simp [Op.registers, heq] at hop
    rw [step_lookup_On]
    split_ifs <;> simp [h]
  | Once l =>
    have hne : fn ≠ reflectValueOf l := by
      intro heq
      simp [Op.registers, heq] at hop
    rw [step_lookup_Once]
    split_ifs <;> simp [h]
  | Off l =>
    rw [step_lookup_Off]
    split_ifs <;> simp [h]
  | Trigger ro a =>
    rw [step_trigger_lookup e (Op.Trigger ro a) rfl, h]
    simp
  | TriggerWait ro a =>
    rw [step_trigger_lookup e (Op.TriggerWait ro a) rfl, h]
    simp

theorem step_count (e : Event) (op : Op) (fn : RValue) :
    (scheduled (step e op).2.actions).count fn =
      if op.isTrigger = true ∧ fn ∈ e.funcs then 1 else 0 := by
  cases h : op.isTrigger
  · simp [step_not_trigger_count e op h]
  · simp [step_trigger_count e op h]

theorem run_keeps_false (fn : RValue) :
    ∀ (ops : List Op) (e : Event), e.funcs.lookup fn = some false →
      (∀ op ∈ ops, op.removesOrOnce fn = false) →
      (run e ops).2.map (fun o => (scheduled o.actions).count fn) =
          ops.map (fun op => if op.isTrigger = true then 1 else 0) ∧
        (run e ops).1.funcs.lookup fn = some false := by
  intro ops
  induction ops with
  | nil => intro e h _; simp [run, h]
  | cons op ops ih =>
    intro e h hops
    have hmem : fn ∈ e.funcs := by
      rw [← AList.lookup_isSome, h]
      rfl
    obtain ⟨ih1, ih2⟩ := ih (step e op).1
      (step_keeps_false e fn op h (hops op (List.mem_cons_self _ _)))
      (fun o ho => hops o (List.mem_cons_of_mem _ ho))
    constructor
    · rw [run_cons, List.map_cons, List.map_cons, ih1, step_count]
      simp [hmem]
    · rw [run_cons]
      exact ih2

theorem run_keeps_absent (fn : RValue) :
    ∀ (ops : List Op) (e : Event), e.funcs.lookup fn = none →
      (∀ op ∈ ops, op.registers fn = false) →
      (run e ops).2.map (fun o => (scheduled o.actions).count fn) =
          List.replicate ops.length 0 ∧
        (run e ops).1.funcs.lookup fn = none := by
  intro ops
  induction ops with
  | nil => intro e h _; simp [run, h]
  | cons op ops ih =>
    intro e h hops
    have hmem : fn ∉ e.funcs := AList.lookup_eq_none.mp h
    obtain ⟨ih1, ih2⟩ := ih (step e op).1
      (step_keeps_absent e fn op h (hops op (List.mem_cons_self _ _)))
      (fun o ho => hops o (List.mem_cons_of_mem _ ho))
    constructor
    · rw [run_cons, List.map_cons, ih1, step_count]
      simp [hmem, List.replicate_succ]
    · rw [run_cons]
      exact ih2

theorem sum_map_isTrigger (ts : List Op) (hts : ∀ op ∈ ts, op.isTrigger = true) :
    (ts.map (fun op => if op.isTrigger = true then 1 else 0)).sum = ts.length := by
  induction ts with
  | nil => rfl
  | cons t ts ih =>
    have ht := hts t (List.mem_cons_self _ _)
    simp [ht, ih (fun op hop => hts op (List.mem_cons_of_mem _ hop))]
    omega

theorem isTrigger_removesOrOnce (fn : RValue) (op : Op) (h : op.isTrigger = true) :
    op.removesOrOnce fn = false := by
  cases op <;> simp_all [Op.isTrigger, Op.removesOrOnce]

/-! ## Registrations of functions against the registry of the specification -/

theorem step_registersFunc (e : Event) (op : Op) (h : op.registersFunc = true) :
    (step e op).2.panic = none ∧ (step e op).2.hookCalls = [] ∧
      abstraction (step e op).1.funcs = specApply (abstraction e.funcs) op := by
  cases op with
  | On l =>
    have hk : (reflectValueOf l).Kind = Kind.Func := by simpa [Op.registersFunc] using h
    refine ⟨by simp [step, On, addListener, hk, registration],
      by simp [step, On, addListener, hk, registration], ?_⟩
    funext k
    simp only [abstraction, specApply, Function.update_apply]
    rw [step_lookup_On]
    simp [hk]
  | Once l =>
    have hk : (reflectValueOf l).Kind = Kind.Func := by simpa [Op.registersFunc] using h
    refine ⟨by simp [step, Once, addListener, hk, registration],
      by simp [step, Once, addListener, hk, registration], ?_⟩
    funext k
    simp only [abstraction, specApply, Function.update_apply]
    rw [step_lookup_Once]
    simp [hk]
  | Off l =>
    have hk : (reflectValueOf l).Kind = Kind.Func := by simpa [Op.registersFunc] using h
    refine ⟨by simp [step, Off, hk, registration],
      by simp [step, Off, hk, registration], ?_⟩
    funext k
    simp only [abstraction, specApply, Function.update_apply]
    rw [step_lookup_Off]
    simp [hk]
  | Trigger ro a => simp [Op.registersFunc] at h
  | TriggerWait ro a => simp [Op.registersFunc] at h

theorem run_registersFunc :
    ∀ (ops : List Op) (e : Event), (∀ op ∈ ops, op.registersFunc = true) →
      (∀ o ∈ (run e ops).2, o.panic = none ∧ o.hookCalls = []) ∧
        abstraction (run e ops).1.funcs = specFold (abstraction e.funcs) ops := by
  intro ops
  induction ops with
  | nil => intro e _; simp [run, specFold]
  | cons op ops ih =>
    intro e hops
    obtain ⟨h1, h2, h3⟩ := step_registersFunc e op (hops op (List.mem_cons_self _ _))
    obtain ⟨ih1, ih2⟩ := ih (step e op).1 (fun o ho => hops o (List.mem_cons_of_mem _ ho))
    constructor
    · intro o ho
      rw [run_cons] at ho
      rcases List.mem_cons.mp ho with rfl | ho
      · exact ⟨h1, h2⟩
      · exact ih1 o ho
    · rw [run_cons]
      simp only [specFold, List.foldl_cons]
      rw [← h3]
      exact ih2

/-- A registration call for another key leaves the entry of `fn` as it is. -/
theorem step_untouched (e : Event) (fn : RValue) (op : Op)
    (h : op.registersFunc = true) (hop : op.touches fn = false) :
    (step e op).1.funcs.lookup fn = e.funcs.lookup fn := by
  cases op with
  | On l =>
    have hne : fn ≠ reflectValueOf l := by
      intro heq
      simp [Op.touches, heq] at hop
    rw [step_lookup_On]
    split_ifs <;> rfl
  | Once l =>
    have hne : fn ≠ reflectValueOf l := by
      intro heq
      simp [Op.touches, heq] at hop
    rw [step_lookup_Once]
    split_ifs <;> rfl
  | Off l =>
    have hne : fn ≠ reflectValueOf l := by
      intro heq
      simp [Op.touches, heq] at hop
    rw [step_lookup_Off]
    split_ifs <;> rfl
  | Trigger ro a => simp [Op.registersFunc] at h
  | TriggerWait ro a => simp [Op.registersFunc] at h

theorem run_untouched (fn : RValue) :
    ∀ (ops : List Op) (e : Event),
      (∀ op ∈ ops, op.registersFunc = true ∧ op.touches fn = false) →
      (run e ops).1.funcs.lookup fn = e.funcs.lookup fn := by
  intro ops
  induction ops with
  | nil => intro e _; rfl
  | cons op ops ih =>
    intro e hops
    rw [run_cons]
    have h := hops op (List.mem_cons_self _ _)
    exact (ih (step e op).1 (fun o ho => hops o (List.mem_cons_of_mem _ ho))).trans
      (step_untouched e fn op h.1 h.2)

/-- The entry of `f` after a sequence of registrations whose last call on `f`
is `op`. -/
theorem run_last_call (e : Event) (f : Iface) (op : Op) (flag : Option Bool)
    (hop : ∀ e2 : Event, (step e2 op).1.funcs.lookup (reflectValueOf f) = flag)
    (pre post : List Op)
    (hpost : ∀ o ∈ post, o.registersFunc = true ∧ o.touches (reflectValueOf f) = false) :
    (run e (pre ++ op :: post)).1.funcs.lookup (reflectValueOf f) = flag := by
  rw [run_append, run_cons]
  exact (run_untouched (reflectValueOf f) post _ hpost).trans (hop _)

/-! ## `Off` on a value that is not a key -/

theorem erase_absent (funcs : Registry) (fn : RValue) (h : fn ∉ funcs) :
    funcs.erase fn = funcs :=
  AList.ext (List.kerase_of_not_mem_keys (fun hk => h (AList.mem_keys.mpr hk)))

theorem Off_absent (e : Event) (f : Iface) (hf : (reflectValueOf f).Kind = Kind.Func)
    (h : reflectValueOf f ∉ e.funcs) : Off e f = Except.ok (e, []) := by
  simp [Off, hf, erase_absent e.funcs _ h]

/-! ## The loop that binds the arguments -/

theorem reflectTypeIn_func (ptr : Nat) (ins : List GoType) (variadic : Option GoType)
    (i : Nat) (t : GoType) (h : (paramTypes ins variadic)[i]? = some t) :
    reflectTypeIn (RValue.valid (GoValue.func ptr ins variadic)) i = Except.ok t := by
  cases variadic with
  | none =>
    simp only [paramTypes] at h
    simp [reflectTypeIn, h]
  | some u =>
    simp only [paramTypes] at h
    by_cases hi : i < ins.length
    · rw [List.getElem?_append_left hi] at h
      simp [reflectTypeIn, h]
    · have hi2 : ins.length ≤ i := Nat.le_of_not_lt hi
      rw [List.getElem?_append_right hi2] at h
      have hnone : ins[i]? = none := List.getElem?_eq_none hi2
      have hidx : i - ins.length = 0 := by
        by_contra hne
        have hpos : 1 ≤ i - ins.length := Nat.one_le_iff_ne_zero.mpr hne
        rw [List.getElem?_eq_none (by simpa using hpos)] at h
        exact Option.noConfusion h
      have hieq : i = ins.length := by omega
      rw [hidx] at h
      simp only [List.getElem?_cons_zero, Option.some.injEq] at h
      simp [reflectTypeIn, hnone, hieq, h]

theorem bindFrom_spec (ptr : Nat) (ins : List GoType) (variadic : Option GoType) :
    ∀ (arguments : List Iface) (i : Nat) (values : List GoValue),
      i + arguments.length ≤ (paramTypes ins variadic).length →
      bindFrom (RValue.valid (GoValue.func ptr ins variadic)) i arguments values =
        Except.ok (values ++ List.zipWith
          (fun a t => match a with
            | none => zeroValue t
            | some v => v)
          arguments ((paramTypes ins variadic).drop i)) := by
  intro arguments
  induction arguments with
  | nil => intro i values _; simp [bindFrom]
  | cons a rest ih =>
    intro i values hlen
    have hi : i < (paramTypes ins variadic).length := by
      simp only [List.length_cons] at hlen
      omega
    have hdrop := List.drop_eq_getElem_cons hi
    have hrest : i + 1 + rest.length ≤ (paramTypes ins variadic).length := by
      simp only [List.length_cons] at hlen
      omega
    cases a with
    | none =>
      have hin := reflectTypeIn_func ptr ins variadic i _ (List.getElem?_eq_getElem hi)
      simp only [bindFrom, hin]
      rw [ih (i + 1) _ hrest, hdrop, List.zipWith_cons_cons, List.append_assoc]
      rfl
    | some v =>
      simp only [bindFrom]
      rw [ih (i + 1) _ hrest, hdrop, List.zipWith_cons_cons, List.append_assoc]
      rfl

/-! ## Invariants of the threads of a dispatch -/

theorem weight_nil (w : Action → Int) : weight w [] = 0 := rfl

theorem weight_cons (w : Action → Int) (a : Action) (acts : List Action) :
    weight w (a :: acts) = w a + weight w acts := by
  simp [weight]

theorem weight_append (w : Action → Int) (xs ys : List Action) :
    weight w (xs ++ ys) = weight w xs + weight w ys := by
  simp [weight]

/-- A step of a goroutine takes the first of its remaining actions. -/
theorem advance_spec (w : Action → Int) :
    ∀ (gs : List (List Action)) (i : Nat) (a : Action) (gs2 : List (List Action)),
      advance i gs = some (a, gs2) →
        w a + (gs2.map (weight w)).sum = (gs.map (weight w)).sum ∧
          List.Forall₂ (fun g2 g => g2 <:+ g) gs2 gs := by
  intro gs
  induction gs with
  | nil => intro i a gs2 h; cases i <;> simp [advance] at h
  | cons g gs ih =>
    intro i a gs2 h
    cases i with
    | zero =>
      cases g with
      | nil => simp [advance] at h
      | cons b rest =>
        simp only [advance, Option.some.injEq, Prod.mk.injEq] at h
        obtain ⟨rfl, rfl⟩ := h
        refine ⟨by simp [weight_cons]; ring, ?_⟩
        exact List.Forall₂.cons (List.suffix_cons _ _)
          (List.forall₂_same.mpr (fun x _ => List.suffix_refl x))
    | succ i =>
      simp only [advance] at h
      cases hadv : advance i gs with
      | none => simp [hadv] at h
      | some v =>
        obtain ⟨b, gs3⟩ := v
        simp only [hadv, Option.some.injEq, Prod.mk.injEq] at h
        obtain ⟨rfl, rfl⟩ := h
        obtain ⟨h1, h2⟩ := ih i b gs3 hadv
        refine ⟨?_, List.Forall₂.cons (List.suffix_refl g) h2⟩
        simp only [List.map_cons, List.sum_cons]
        linarith

theorem spawnWeight_cons (recoverer : Bool) (bodies : Bodies) (w : Action → Int)
    (a : Action) (rest : List Action) :
    spawnWeight recoverer bodies w (a :: rest) =
      (match a with
        | Action.spawn t => weight w (goroutine recoverer bodies t)
        | _ => 0) + spawnWeight recoverer bodies w rest := by
  cases a <;> simp [spawnWeight]

/-- The five kinds of step: nothing happens; `wg.Wait()` passes at counter
zero; the calling thread starts a goroutine; the calling thread performs
another action; a goroutine performs its next action. -/
theorem perform_cases (recoverer : Bool) (bodies : Bodies) (d : Dispatch) (thread : Nat) :
    perform recoverer bodies d thread = d ∨
    (∃ rest, d.crashed = none ∧ d.caller = Action.wgWait :: rest ∧ d.counter = 0 ∧
      perform recoverer bodies d thread =
        { d with caller := rest, log := d.log ++ [Action.wgWait] }) ∨
    (∃ t rest, d.crashed = none ∧ d.caller = Action.spawn t :: rest ∧
      perform recoverer bodies d thread =
        { d with
          caller := rest
          goroutines := d.goroutines ++ [goroutine recoverer bodies t]
          log := d.log ++ [Action.spawn t] }) ∨
    (∃ a rest, d.crashed = none ∧ d.caller = a :: rest ∧ a ≠ Action.wgWait ∧
      (∀ t, a ≠ Action.spawn t) ∧
      perform recoverer bodies d thread =
        effect a { d with caller := rest, log := d.log ++ [a] }) ∨
    (∃ i a gs, d.crashed = none ∧ advance i d.goroutines = some (a, gs) ∧
      perform recoverer bodies d thread =
        effect a { d with goroutines := gs, log := d.log ++ [a] }) := by
  unfold perform
  split
  · exact Or.inl rfl
  · rename_i hc
    split
    · split
      · exact Or.inl rfl
      · rename_i rest hcaller
        by_cases h0 : d.counter = 0
        · exact Or.inr (Or.inl ⟨rest, hc, hcaller, h0, by simp [h0]⟩)
        · exact Or.inl (by simp [h0])
      · rename_i t rest hcaller
        exact Or.inr (Or.inr (Or.inl ⟨t, rest, hc, hcaller, rfl⟩))
      · rename_i a rest hwait hspawn hcaller
        refine Or.inr (Or.inr (Or.inr (Or.inl ⟨a, rest, hc, hcaller, ?_, ?_, rfl⟩)))
        · rintro rfl
          exact hwait rfl
        · rintro t rfl
          exact hspawn t rfl
    · rename_i i
      split
      · exact Or.inl rfl
      · rename_i a gs hadv
        exact Or.inr (Or.inr (Or.inr (Or.inr ⟨i, a, gs, hc, hadv, rfl⟩)))

theorem spawnWeight_cons_other (recoverer : Bool) (bodies : Bodies) (w : Action → Int)
    (a : Action) (rest : List Action) (h : ∀ t, a ≠ Action.spawn t) :
    spawnWeight recoverer bodies w (a :: rest) = spawnWeight recoverer bodies w rest := by
  cases a with
  | spawn t => exact absurd rfl (h t)
  | _ => rfl

/-- What is performed and what remains add up to the same weight after every
step. -/
theorem perform_conserves (recoverer : Bool) (bodies : Bodies) (w : Action → Int)
    (d : Dispatch) (thread : Nat) :
    weight w (perform recoverer bodies d thread).log +
        remaining recoverer bodies w (perform recoverer bodies d thread) =
      weight w d.log + remaining recoverer bodies w d := by
  rcases perform_cases recoverer bodies d thread with h | ⟨rest, _, hcaller, _, h⟩ |
    ⟨t, rest, _, hcaller, h⟩ | ⟨a, rest, _, hcaller, _, hspawn, h⟩ | ⟨i, a, gs, _, hadv, h⟩
  · rw [h]
  · rw [h]
    simp [remaining, hcaller, weight_append, weight_cons, weight_nil, spawnWeight]
    ring
  · rw [h]
    simp [remaining, hcaller, weight_append, weight_cons, weight_nil, spawnWeight]
    ring
  · rw [h]
    have hsw := spawnWeight_cons_other recoverer bodies w a rest hspawn
    cases a <;>
      simp [effect, remaining, hcaller, weight_append, weight_cons, weight_nil, hsw] <;>
      ring
  · rw [h]
    have h2 := (advance_spec w d.goroutines i a gs hadv).1
    cases a <;>
      simp [effect, remaining, weight_append, weight_cons, weight_nil] <;> linarith

theorem runSchedule_nil (recoverer : Bool) (bodies : Bodies) (d : Dispatch) :
    runSchedule recoverer bodies d [] = d := rfl

theorem runSchedule_append (recoverer : Bool) (bodies : Bodies) (d : Dispatch)
    (xs ys : List Nat) :
    runSchedule recoverer bodies d (xs ++ ys) =
      runSchedule recoverer bodies (runSchedule recoverer bodies d xs) ys := by
  simp [runSchedule, List.foldl_append]

/-- A property that holds at the start and is kept by every step holds after
every schedule. -/
theorem runSchedule_induction (recoverer : Bool) (bodies : Bodies) (P : Dispatch → Prop)
    (hstep : ∀ d thread, P d → P (perform recoverer bodies d thread)) :
    ∀ (schedule : List Nat) (d : Dispatch), P d → P (runSchedule recoverer bodies d schedule) := by
  intro schedule
  induction schedule with
  | nil => intro d h; exact h
  | cons t ts ih =>
    intro d h
    exact ih _ (hstep d t h)

theorem runSchedule_conserves (recoverer : Bool) (bodies : Bodies) (w : Action → Int)
    (d : Dispatch) (schedule : List Nat) :
    weight w (runSchedule recoverer bodies d schedule).log +
        remaining recoverer bodies w (runSchedule recoverer bodies d schedule) =
      weight w d.log + remaining recoverer bodies w d :=
  runSchedule_induction recoverer bodies
    (fun x => weight w x.log + remaining recoverer bodies w x =
      weight w d.log + remaining recoverer bodies w d)
    (fun x thread hx => (perform_conserves recoverer bodies w x thread).trans hx) schedule d rfl

/-- The counter is the sum of the changes performed. -/
theorem perform_counter (recoverer : Bool) (bodies : Bodies) (d : Dispatch) (thread : Nat)
    (h : d.counter = weight counterChange d.log) :
    (perform recoverer bodies d thread).counter =
      weight counterChange (perform recoverer bodies d thread).log := by
  rcases perform_cases recoverer bodies d thread with h1 | ⟨rest, _, _, _, h1⟩ |
    ⟨t, rest, _, _, h1⟩ | ⟨a, rest, _, _, _, _, h1⟩ | ⟨i, a, gs, _, _, h1⟩
  · rw [h1]; exact h
  · rw [h1]
    simp [weight_append, weight_cons, weight_nil, counterChange, h]
  · rw [h1]
    simp [weight_append, weight_cons, weight_nil, counterChange, h]
  · rw [h1]
    cases a <;> simp [effect, weight_append, weight_cons, weight_nil, counterChange, h]
    all_goals ring
  · rw [h1]
    cases a <;> simp [effect, weight_append, weight_cons, weight_nil, counterChange, h]
    all_goals ring

/-- The calling thread only drops actions from the front of its list. -/
theorem perform_caller_suffix (recoverer : Bool) (bodies : Bodies) (d : Dispatch)
    (thread : Nat) : (perform recoverer bodies d thread).caller <:+ d.caller := by
  rcases perform_cases recoverer bodies d thread with h1 | ⟨rest, _, hcaller, _, h1⟩ |
    ⟨t, rest, _, hcaller, h1⟩ | ⟨a, rest, _, hcaller, _, _, h1⟩ | ⟨i, a, gs, _, _, h1⟩
  · rw [h1]
  · rw [h1, hcaller]
    exact List.suffix_cons _ _
  · rw [h1, hcaller]
    exact List.suffix_cons _ _
  · rw [h1, hcaller]
    cases a <;> exact List.suffix_cons _ _
  · rw [h1]
    cases a <;> exact List.suffix_refl _

/-! ## The shape of a goroutine -/

theorem invoke_actions (bodies : Bodies) (t : Task) :
    ∀ a ∈ (invoke bodies t).1, a.isCallOrHook = true := by
  unfold invoke
  cases bindArguments t.fn t.arguments with
  | error p => simp
  | ok values => simp [Action.isCallOrHook]

theorem recoverDeferred_actions (t : Task) (panicking : Option PanicValue) :
    ∀ a ∈ (recoverDeferred t panicking).1, a.isCallOrHook = true := by
  unfold recoverDeferred
  cases panicking with
  | none => simp
  | some r =>
    cases t.fn.Interface with
    | error p => simp
    | ok i => simp [Action.isCallOrHook]

/-- A goroutine of a `TriggerWait` performs its listener call and its hook
call, if any, then `wg.Done()` once, and after it at most the end of the program
by an unrecovered panic. -/
theorem goroutine_shape (recoverer : Bool) (bodies : Bodies) (t : Task) (hw : t.wait = true) :
    ∃ pre post, goroutine recoverer bodies t = pre ++ Action.wgDone :: post ∧
      (∀ a ∈ pre, a.isCallOrHook = true) ∧ (∀ a ∈ post, a.isCrash = true) := by
  cases recoverer with
  | true =>
    refine ⟨(invoke bodies t).1 ++ (recoverDeferred t (invoke bodies t).2).1,
      (match (recoverDeferred t (invoke bodies t).2).2 with
        | none => []
        | some p => [Action.crash p]), ?_, ?_, ?_⟩
    · simp [goroutine, hw]
    · intro a ha
      rcases List.mem_append.mp ha with h | h
      · exact invoke_actions bodies t a h
      · exact recoverDeferred_actions t _ a h
    · intro a ha
      cases hr : (recoverDeferred t (invoke bodies t).2).2 with
      | none => simp [hr] at ha
      | some p =>
        simp only [hr, List.mem_singleton] at ha
        subst ha
        rfl
  | false =>
    refine ⟨(invoke bodies t).1,
      (match (invoke bodies t).2 with
        | none => []
        | some p => [Action.crash p]), ?_, ?_, ?_⟩
    · simp [goroutine, hw]
    · exact invoke_actions bodies t
    · intro a ha
      cases hr : (invoke bodies t).2 with
      | none => simp [hr] at ha
      | some p =>
        simp only [hr, List.mem_singleton] at ha
        subst ha
        rfl

/-- A suffix of `pre ++ x :: post` is a suffix of `post` or contains `x :: post`. -/
theorem suffix_split (x : Action) (post : List Action) :
    ∀ (pre g : List Action), g <:+ pre ++ x :: post →
      g <:+ post ∨ ∃ pre2, pre2 <:+ pre ∧ g = pre2 ++ x :: post := by
  intro pre
  induction pre with
  | nil =>
    intro g h
    rcases List.suffix_cons_iff.mp h with h1 | h1
    · exact Or.inr ⟨[], List.suffix_refl _, h1⟩
    · exact Or.inl h1
  | cons b pre ih =>
    intro g h
    rcases List.suffix_cons_iff.mp h with h1 | h1
    · exact Or.inr ⟨b :: pre, List.suffix_refl _, h1⟩
    · rcases ih g h1 with h2 | ⟨pre2, h3, h4⟩
      · exact Or.inl h2
      · exact Or.inr ⟨pre2, h3.trans (List.suffix_cons _ _), h4⟩

theorem weight_counterChange_callOrHook (l : List Action)
    (h : ∀ a ∈ l, a.isCallOrHook = true) : weight counterChange l = 0 := by
  induction l with
  | nil => rfl
  | cons a l ih =>
    have ha := h a (List.mem_cons_self _ _)
    rw [weight_cons, ih (fun b hb => h b (List.mem_cons_of_mem _ hb))]
    cases a <;> simp_all [Action.isCallOrHook, counterChange]

theorem weight_counterChange_crash (l : List Action)
    (h : ∀ a ∈ l, a.isCrash = true) : weight counterChange l = 0 := by
  induction l with
  | nil => rfl
  | cons a l ih =>
    have ha := h a (List.mem_cons_self _ _)
    rw [weight_cons, ih (fun b hb => h b (List.mem_cons_of_mem _ hb))]
    cases a <;> simp_all [Action.isCrash, counterChange]

theorem unfinished_crash (l : List Action) (h : ∀ a ∈ l, a.isCrash = true) :
    unfinished l = false := by
  simp only [unfinished, List.any_eq_false]
  intro a ha
  have h2 := h a ha
  cases a <;> simp_all [Action.isCrash]

/-- The remaining actions of a goroutine of a `TriggerWait` hold one `wg.Done()`
while the goroutine is unfinished and none afterwards. -/
theorem weight_remaining_goroutine (recoverer : Bool) (bodies : Bodies) (t : Task)
    (hw : t.wait = true) (g : List Action) (hg : g <:+ goroutine recoverer bodies t) :
    weight counterChange g = -(if unfinished g = true then 1 else 0) := by
  obtain ⟨pre, post, hshape, hpre, hpost⟩ := goroutine_shape recoverer bodies t hw
  rw [hshape] at hg
  rcases suffix_split Action.wgDone post pre g hg with h | ⟨pre2, hpre2, rfl⟩
  · have hcrash : ∀ a ∈ g, a.isCrash = true := fun a ha => hpost a (h.subset ha)
    rw [weight_counterChange_crash g hcrash, unfinished_crash g hcrash]
    simp
  · have hcall : ∀ a ∈ pre2, a.isCallOrHook = true := fun a ha => hpre a (hpre2.subset ha)
    have hunf : unfinished (pre2 ++ Action.wgDone :: post) = true := by
      simp [unfinished]
    rw [weight_append, weight_cons, weight_counterChange_callOrHook pre2 hcall,
      weight_counterChange_crash post hpost, hunf]
    simp [counterChange]

theorem weight_goroutine (recoverer : Bool) (bodies : Bodies) (t : Task)
    (hw : t.wait = true) : weight counterChange (goroutine recoverer bodies t) = -1 := by
  obtain ⟨pre, post, hshape, hpre, hpost⟩ := goroutine_shape recoverer bodies t hw
  rw [hshape, weight_append, weight_cons, weight_counterChange_callOrHook pre hpre,
    weight_counterChange_crash post hpost]
  simp [counterChange]

/-! ## The states a dispatch reaches -/

theorem mem_spawned (t : Task) : ∀ acts : List Action, t ∈ spawned acts ↔ Action.spawn t ∈ acts := by
  intro acts
  induction acts with
  | nil => simp [spawned]
  | cons a acts ih => cases a <;> simp [spawned, ih]

theorem forall₂_suffix_mem {gs2 gs : List (List Action)}
    (h : List.Forall₂ (fun g2 g => g2 <:+ g) gs2 gs) :
    ∀ g2 ∈ gs2, ∃ g ∈ gs, g2 <:+ g := by
  induction h with
  | nil => intro g2 hg; simp at hg
  | cons hab _ ih =>
    intro g2 hg
    rcases List.mem_cons.mp hg with rfl | hg
    · exact ⟨_, List.mem_cons_self _ _, hab⟩
    · obtain ⟨g, hg1, hg2⟩ := ih g2 hg
      exact ⟨g, List.mem_cons_of_mem _ hg1, hg2⟩

theorem effect_caller (a : Action) (d : Dispatch) : (effect a d).caller = d.caller := by
  cases a <;> rfl

theorem effect_goroutines (a : Action) (d : Dispatch) :
    (effect a d).goroutines = d.goroutines := by
  cases a <;> rfl

theorem effect_log (a : Action) (d : Dispatch) : (effect a d).log = d.log := by
  cases a <;> rfl

theorem reach_counter (recoverer : Bool) (bodies : Bodies) (acts : List Action)
    (schedule : List Nat) :
    (runSchedule recoverer bodies (dispatch acts) schedule).counter =
      weight counterChange (runSchedule recoverer bodies (dispatch acts) schedule).log :=
  runSchedule_induction recoverer bodies (fun d => d.counter = weight counterChange d.log)
    (fun d thread h => perform_counter recoverer bodies d thread h) schedule _ rfl

theorem reach_caller_suffix (recoverer : Bool) (bodies : Bodies) (acts : List Action)
    (schedule : List Nat) :
    (runSchedule recoverer bodies (dispatch acts) schedule).caller <:+ acts :=
  runSchedule_induction recoverer bodies (fun d => d.caller <:+ acts)
    (fun d thread h => (perform_caller_suffix recoverer bodies d thread).trans h) schedule _
    (List.suffix_refl _)

/-- Every goroutine comes from a `go` statement of the call, and what it has
still to perform is an end piece of its actions. -/
theorem reach_origin (recoverer : Bool) (bodies : Bodies) (acts : List Action)
    (schedule : List Nat) :
    ∀ g ∈ (runSchedule recoverer bodies (dispatch acts) schedule).goroutines,
      ∃ t ∈ spawned acts, g <:+ goroutine recoverer bodies t := by
  have key := runSchedule_induction recoverer bodies
    (fun d => d.caller <:+ acts ∧
      ∀ g ∈ d.goroutines, ∃ t ∈ spawned acts, g <:+ goroutine recoverer bodies t)
    (by
      intro d thread h
      refine ⟨(perform_caller_suffix recoverer bodies d thread).trans h.1, ?_⟩
      rcases perform_cases recoverer bodies d thread with h1 | ⟨rest, _, _, _, h1⟩ |
        ⟨t, rest, _, hcaller, h1⟩ | ⟨a, rest, _, _, _, _, h1⟩ | ⟨i, a, gs, _, hadv, h1⟩
      · rw [h1]; exact h.2
      · rw [h1]; exact h.2
      · rw [h1]
        intro g hg
        rcases List.mem_append.mp hg with hg | hg
        · exact h.2 g hg
        · have hgeq : g = goroutine recoverer bodies t := by simpa using hg
          have hmem : Action.spawn t ∈ acts :=
            h.1.subset (by rw [hcaller]; exact List.mem_cons_self _ _)
          exact ⟨t, (mem_spawned t acts).mpr hmem, hgeq ▸ List.suffix_refl _⟩
      · rw [h1, effect_goroutines]; exact h.2
      · rw [h1, effect_goroutines]
        intro g hg
        obtain ⟨g0, hg0, hsuf⟩ :=
          forall₂_suffix_mem (advance_spec counterChange d.goroutines i a gs hadv).2 g hg
        obtain ⟨t, ht, htsuf⟩ := h.2 g0 hg0
        exact ⟨t, ht, hsuf.trans htsuf⟩)
    schedule (dispatch acts) ⟨List.suffix_refl _, by simp [dispatch]⟩
  exact key.2

/-- Either nothing has happened yet, or the calling thread has performed its
first action. -/
theorem reach_started (recoverer : Bool) (bodies : Bodies) (acts : List Action)
    (schedule : List Nat) :
    ((runSchedule recoverer bodies (dispatch acts) schedule).caller = acts ∧
      (runSchedule recoverer bodies (dispatch acts) schedule).goroutines = [] ∧
      (runSchedule recoverer bodies (dispatch acts) schedule).log = []) ∨
    (runSchedule recoverer bodies (dispatch acts) schedule).caller.length < acts.length := by
  have key := runSchedule_induction recoverer bodies
    (fun d => d.caller <:+ acts ∧
      ((d.caller = acts ∧ d.goroutines = [] ∧ d.log = []) ∨ d.caller.length < acts.length))
    (by
      intro d thread h
      refine ⟨(perform_caller_suffix recoverer bodies d thread).trans h.1, ?_⟩
      have hlen : d.caller.length ≤ acts.length := h.1.length_le
      rcases perform_cases recoverer bodies d thread with h1 | ⟨rest, _, hcaller, _, h1⟩ |
        ⟨t, rest, _, hcaller, h1⟩ | ⟨a, rest, _, hcaller, _, _, h1⟩ | ⟨i, a, gs, _, hadv, h1⟩
      · rw [h1]; exact h.2
      · rw [h1]
        right
        rw [hcaller] at hlen
        simp only [List.length_cons] at hlen
        simp only
        omega
      · rw [h1]
        right
        rw [hcaller] at hlen
        simp only [List.length_cons] at hlen
        simp only
        omega
      · rw [h1, effect_caller]
        right
        rw [hcaller] at hlen
        simp only [List.length_cons] at hlen
        simp only
        omega
      · rcases h.2 with ⟨_, hgs, _⟩ | hlt
        · rw [hgs] at hadv
          cases i <;> simp [advance] at hadv
        · rw [h1, effect_caller]
          right
          exact hlt)
    schedule (dispatch acts) ⟨List.suffix_refl _, Or.inl ⟨rfl, rfl, rfl⟩⟩
  exact key.2

theorem advance_length :
    ∀ (gs : List (List Action)) (i : Nat) (a : Action) (gs2 : List (List Action)),
      advance i gs = some (a, gs2) → gs2.length = gs.length := by
  intro gs i a gs2 h
  exact (advance_spec counterChange gs i a gs2 h).2.length_eq

/-- The goroutines started and the `go` statements still to come are as many as
the `go` statements of the call. -/
theorem reach_spawned (recoverer : Bool) (bodies : Bodies) (acts : List Action)
    (schedule : List Nat) :
    (runSchedule recoverer bodies (dispatch acts) schedule).goroutines.length +
        (spawned (runSchedule recoverer bodies (dispatch acts) schedule).caller).length =
      (spawned acts).length :=
  runSchedule_induction recoverer bodies
    (fun d => d.goroutines.length + (spawned d.caller).length = (spawned acts).length)
    (by
      intro d thread h
      rcases perform_cases recoverer bodies d thread with h1 | ⟨rest, _, hcaller, _, h1⟩ |
        ⟨t, rest, _, hcaller, h1⟩ | ⟨a, rest, _, hcaller, _, hspawn, h1⟩ |
        ⟨i, a, gs, _, hadv, h1⟩
      · rw [h1]; exact h
      · rw [h1]
        rw [hcaller] at h
        simpa [spawned] using h
      · rw [h1]
        rw [hcaller] at h
        simp only [spawned, List.length_cons] at h
        simp only [List.length_append, List.length_singleton]
        omega
      · rw [h1, effect_caller, effect_goroutines]
        rw [hcaller] at h
        cases a with
        | spawn t => exact absurd rfl (hspawn t)
        | _ => simpa [spawned] using h
      · rw [h1, effect_caller, effect_goroutines]
        simp only
        rw [advance_length d.goroutines i a gs hadv]
        exact h)
    schedule (dispatch acts) (by simp [dispatch])

/-- The program has ended only if an unrecovered panic has been performed. -/
theorem reach_crashed (recoverer : Bool) (bodies : Bodies) (acts : List Action)
    (schedule : List Nat) (p : PanicValue)
    (h : (runSchedule recoverer bodies (dispatch acts) schedule).crashed = some p) :
    Action.crash p ∈ (runSchedule recoverer bodies (dispatch acts) schedule).log := by
  have key := runSchedule_induction recoverer bodies
    (fun d => ∀ q, d.crashed = some q → Action.crash q ∈ d.log)
    (by
      intro d thread h q
      rcases perform_cases recoverer bodies d thread with h1 | ⟨rest, hc, _, _, h1⟩ |
        ⟨t, rest, hc, _, h1⟩ | ⟨a, rest, hc, _, _, _, h1⟩ | ⟨i, a, gs, hc, _, h1⟩
      · rw [h1]; exact h q
      · rw [h1]; intro hq; simp [hc] at hq
      · rw [h1]; intro hq; simp [hc] at hq
      · rw [h1]
        cases a <;> simp [effect, hc]
        intro hq
        exact Or.inr hq.symm
      · rw [h1]
        cases a <;> simp [effect, hc]
        intro hq
        exact Or.inr hq.symm)
    schedule (dispatch acts) (by simp [dispatch])
  exact key p h

/-! ## The counter of the wait group -/

theorem spawnWeight_wait (recoverer : Bool) (bodies : Bodies) :
    ∀ l : List Action, (∀ t, Action.spawn t ∈ l → t.wait = true) →
      spawnWeight recoverer bodies counterChange l = -((spawned l).length : Int) := by
  intro l
  induction l with
  | nil => intro _; simp [spawnWeight, spawned]
  | cons a l ih =>
    intro h
    have ih2 := ih (fun t ht => h t (List.mem_cons_of_mem _ ht))
    cases a with
    | spawn t =>
      simp only [spawnWeight, spawned, List.length_cons, ih2,
        weight_goroutine recoverer bodies t (h t (List.mem_cons_self _ _))]
      push_cast
      ring
    | _ => simpa [spawnWeight, spawned] using ih2

theorem weight_counterChange_spawns (tasks : List Task) :
    weight counterChange (tasks.map Action.spawn ++ [Action.wgWait]) = 0 := by
  induction tasks with
  | nil => simp [weight, counterChange]
  | cons t tasks ih =>
    simp only [List.map_cons, List.cons_append, weight_cons, ih]
    simp [counterChange]

theorem weight_counterChange_suffix_spawns (tasks : List Task) (c : List Action)
    (h : c <:+ tasks.map Action.spawn ++ [Action.wgWait]) : weight counterChange c = 0 := by
  have hall : ∀ a ∈ c, counterChange a = 0 := by
    intro a ha
    have hmem := h.subset ha
    rcases List.mem_append.mp hmem with h1 | h1
    · obtain ⟨t, _, rfl⟩ := List.mem_map.mp h1
      rfl
    · have : a = Action.wgWait := by simpa using h1
      subst this
      rfl
  clear h
  induction c with
  | nil => rfl
  | cons a c ih =>
    rw [weight_cons, hall a (List.mem_cons_self _ _),
      ih (fun b hb => hall b (List.mem_cons_of_mem _ hb))]
    rfl

theorem sum_weight_goroutines (recoverer : Bool) (bodies : Bodies) (tasks : List Task)
    (hw : ∀ t ∈ tasks, t.wait = true) :
    ∀ gs : List (List Action),
      (∀ g ∈ gs, ∃ t ∈ tasks, g <:+ goroutine recoverer bodies t) →
      (gs.map (weight counterChange)).sum = -(((gs.filter unfinished).length : Nat) : Int) := by
  intro gs
  induction gs with
  | nil => intro _; simp
  | cons g gs ih =>
    intro h
    obtain ⟨t, ht, hsuf⟩ := h g (List.mem_cons_self _ _)
    have hg := weight_remaining_goroutine recoverer bodies t (hw t ht) g hsuf
    have ih2 := ih (fun x hx => h x (List.mem_cons_of_mem _ hx))
    simp only [List.map_cons, List.sum_cons, ih2, hg]
    cases hu : unfinished g
    · simp [List.filter, hu]
    · simp [List.filter, hu]

theorem spawned_spawns (tasks : List Task) :
    spawned (tasks.map Action.spawn ++ [Action.wgWait]) = tasks := by
  rw [spawned_append, spawned_map_spawn]
  simp [spawned]

/-- The counter in every state of a `TriggerWait` whose `go` statements are
those of `tasks`: it is not negative, and once the calling thread has started it
is the number of `go` statements still to come plus the number of unfinished
goroutines. -/
theorem waitDispatch_counter (recoverer : Bool) (bodies : Bodies) (tasks : List Task)
    (hw : ∀ t ∈ tasks, t.wait = true) (schedule : List Nat) :
    0 ≤ (runSchedule recoverer bodies
        (dispatch (Action.wgAdd tasks.length :: (tasks.map Action.spawn ++ [Action.wgWait])))
        schedule).counter ∧
      ((runSchedule recoverer bodies
          (dispatch (Action.wgAdd tasks.length :: (tasks.map Action.spawn ++ [Action.wgWait])))
          schedule).caller.length < tasks.length + 2 →
        (runSchedule recoverer bodies
          (dispatch (Action.wgAdd tasks.length :: (tasks.map Action.spawn ++ [Action.wgWait])))
          schedule).counter =
        (((spawned (runSchedule recoverer bodies
          (dispatch (Action.wgAdd tasks.length :: (tasks.map Action.spawn ++ [Action.wgWait])))
          schedule).caller).length +
          ((runSchedule recoverer bodies
          (dispatch (Action.wgAdd tasks.length :: (tasks.map Action.spawn ++ [Action.wgWait])))
          schedule).goroutines.filter unfinished).length : Nat) : Int)) := by
  generalize hacts :
    Action.wgAdd tasks.length :: (tasks.map Action.spawn ++ [Action.wgWait]) = acts
  generalize hd : runSchedule recoverer bodies (dispatch acts) schedule = d
  have hspawned : spawned acts = tasks := by
    rw [← hacts]
    simp [spawned, spawned_spawns]
  have hcons := runSchedule_conserves recoverer bodies counterChange (dispatch acts) schedule
  have hcount := reach_counter recoverer bodies acts schedule
  have hsuf := reach_caller_suffix recoverer bodies acts schedule
  have horigin := reach_origin recoverer bodies acts schedule
  rw [hd] at hcons hcount hsuf horigin
  rw [hspawned] at horigin
  have hsum := sum_weight_goroutines recoverer bodies tasks hw d.goroutines horigin
  have hwaitall : ∀ t, Action.spawn t ∈ d.caller → t.wait = true := by
    intro t ht
    have h1 : t ∈ spawned acts := (mem_spawned t acts).mpr (hsuf.subset ht)
    rw [hspawned] at h1
    exact hw t h1
  have hsw := spawnWeight_wait recoverer bodies d.caller hwaitall
  have hinit : remaining recoverer bodies counterChange (dispatch acts) = 0 := by
    rw [← hacts]
    have h1 := spawnWeight_wait recoverer bodies (tasks.map Action.spawn ++ [Action.wgWait])
      (by
        intro t ht
        have h2 : t ∈ spawned (tasks.map Action.spawn ++ [Action.wgWait]) :=
          (mem_spawned t _).mpr ht
        rw [spawned_spawns] at h2
        exact hw t h2)
    rw [spawned_spawns] at h1
    simp only [remaining, dispatch, weight_cons, weight_counterChange_spawns, spawnWeight, h1,
      List.map_nil, List.sum_nil, counterChange]
    ring
  have hlog0 : weight counterChange (dispatch acts).log = 0 := rfl
  rw [hinit, hlog0] at hcons
  simp only [remaining, hsw, hsum] at hcons
  have hcaller : d.caller = acts ∨ d.caller <:+ tasks.map Action.spawn ++ [Action.wgWait] := by
    rw [← hacts] at hsuf
    rcases List.suffix_cons_iff.mp hsuf with h1 | h1
    · exact Or.inl (h1.trans hacts)
    · exact Or.inr h1
  have hlen : acts.length = tasks.length + 2 := by
    rw [← hacts]
    simp
  rcases hcaller with h1 | h1
  · have hw1 : weight counterChange d.caller = tasks.length := by
      rw [h1, ← hacts, weight_cons, weight_counterChange_spawns]
      simp [counterChange]
    have hs1 : (spawned d.caller).length = tasks.length := by rw [h1, hspawned]
    rw [hw1, hs1] at hcons
    constructor
    · rw [hcount]
      have : (0 : Int) ≤ ((d.goroutines.filter unfinished).length : Nat) := Int.natCast_nonneg _
      linarith
    · intro hlt
      rw [h1, hlen] at hlt
      exact absurd hlt (lt_irrefl _)
  · have hw1 := weight_counterChange_suffix_spawns tasks d.caller h1
    rw [hw1] at hcons
    have heq : d.counter =
        (((spawned d.caller).length + (d.goroutines.filter unfinished).length : Nat) : Int) := by
      rw [hcount]
      push_cast
      linarith
    exact ⟨by rw [heq]; exact Int.natCast_nonneg _, fun _ => heq⟩

theorem unfinished_suffix (g2 g : List Action) (h : g2 <:+ g) (hg : unfinished g = false) :
    unfinished g2 = false := by
  simp only [unfinished, List.any_eq_false] at hg ⊢
  exact fun a ha => hg a (h.subset ha)

theorem runSchedule_snoc (recoverer : Bool) (bodies : Bodies) (d : Dispatch)
    (schedule : List Nat) (thread : Nat) :
    runSchedule recoverer bodies d (schedule ++ [thread]) =
      perform recoverer bodies (runSchedule recoverer bodies d schedule) thread := by
  simp [runSchedule, List.foldl_append]

theorem last_of_wait_actions (tasks : List Task) (a : Action)
    (h : [a] <:+ Action.wgAdd tasks.length :: (tasks.map Action.spawn ++ [Action.wgWait])) :
    a = Action.wgWait := by
  obtain ⟨pre, hpre⟩ := h
  have h2 : pre ++ [a] = (Action.wgAdd tasks.length :: tasks.map Action.spawn) ++
      [Action.wgWait] := by simpa using hpre
  have h3 := (List.append_inj' h2 rfl).2
  simpa using h3

/-- When `wg.Wait()` has returned, every goroutine of the call is finished. -/
theorem waitDispatch_returned (recoverer : Bool) (bodies : Bodies) (tasks : List Task)
    (hw : ∀ t ∈ tasks, t.wait = true) :
    ∀ schedule : List Nat,
      (runSchedule recoverer bodies
        (dispatch (Action.wgAdd tasks.length :: (tasks.map Action.spawn ++ [Action.wgWait])))
        schedule).caller = [] →
      ∀ g ∈ (runSchedule recoverer bodies
        (dispatch (Action.wgAdd tasks.length :: (tasks.map Action.spawn ++ [Action.wgWait])))
        schedule).goroutines, unfinished g = false := by
  intro schedule
  induction schedule using List.reverseRecOn with
  | nil => intro h; simp [runSchedule, dispatch] at h
  | append_singleton schedule thread ih =>
    rw [runSchedule_snoc]
    have hcounter := (waitDispatch_counter recoverer bodies tasks hw schedule).2
    have hsuf := reach_caller_suffix recoverer bodies
      (Action.wgAdd tasks.length :: (tasks.map Action.spawn ++ [Action.wgWait])) schedule
    generalize runSchedule recoverer bodies
      (dispatch (Action.wgAdd tasks.length :: (tasks.map Action.spawn ++ [Action.wgWait])))
      schedule = d at ih hcounter hsuf ⊢
    rcases perform_cases recoverer bodies d thread with h1 | ⟨rest, _, hcaller, h0, h1⟩ |
      ⟨t, rest, _, hcaller, h1⟩ | ⟨a, rest, _, hcaller, hwait, _, h1⟩ | ⟨i, a, gs, _, hadv, h1⟩
    · rw [h1]; exact ih
    · rw [h1]
      intro hrest
      have hrest2 : rest = [] := hrest
      subst hrest2
      have hc := hcounter (by rw [hcaller]; simp)
      rw [h0, hcaller] at hc
      have hzero : (d.goroutines.filter unfinished).length = 0 := by
        have h2 : ((spawned [Action.wgWait]).length +
            (d.goroutines.filter unfinished).length : Nat) = 0 := by exact_mod_cast hc.symm
        omega
      intro g hg
      have hnil := List.length_eq_zero.mp hzero
      have hnot : g ∉ d.goroutines.filter unfinished := by rw [hnil]; simp
      cases hu : unfinished g
      · rfl
      · exact absurd (List.mem_filter.mpr ⟨hg, hu⟩) hnot
    · rw [h1]
      intro hrest
      have hrest2 : rest = [] := hrest
      subst hrest2
      rw [hcaller] at hsuf
      exact absurd (last_of_wait_actions tasks _ hsuf) (by simp)
    · rw [h1, effect_caller, effect_goroutines]
      intro hrest
      have hrest2 : rest = [] := hrest
      subst hrest2
      rw [hcaller] at hsuf
      exact absurd (last_of_wait_actions tasks _ hsuf) hwait
    · rw [h1, effect_caller, effect_goroutines]
      intro hc g hg
      obtain ⟨g0, hg0, hsuf0⟩ :=
        forall₂_suffix_mem (advance_spec counterChange d.goroutines i a gs hadv).2 g hg
      exact unfinished_suffix g g0 hsuf0 (ih hc g0 hg0)

/-- The actions of the calling thread in `TriggerWait`: `wg.Add` with the
number of goroutines, then the `go` statements, then `wg.Wait()`. -/
theorem TriggerWait_actions (e : Event) (ro : RangeOrder) (arguments : List Iface) :
    (TriggerWait e ro arguments).2 =
      Action.wgAdd (spawned (TriggerWait e ro arguments).2).length ::
        ((spawned (TriggerWait e ro arguments).2).map Action.spawn ++ [Action.wgWait]) := by
  have h := (rangeFuncs_spec true arguments (ro.order e.funcs.keys) e.funcs
    [Action.wgAdd e.funcs.keys.length] (order_nodup e ro)
    (fun k hk => (order_mem e ro k).mp hk)).1
  rw [spawned_TriggerWait]
  simp only [TriggerWait, trigger, if_true]
  rw [h]
  simp [List.map_map, Function.comp_def, length_order]

theorem spawned_TriggerWait_wait (e : Event) (ro : RangeOrder) (arguments : List Iface) :
    ∀ t ∈ spawned (TriggerWait e ro arguments).2, t.wait = true := by
  intro t ht
  rw [spawned_TriggerWait] at ht
  obtain ⟨fn, _, rfl⟩ := List.mem_map.mp ht
  rfl

/-! ## Goroutines under a recovery hook -/

/-- With a recovery hook, the goroutine of a valid `reflect.Value` makes its
listener call, calls the hook once if the call panics, and performs `wg.Done()`. -/
theorem goroutine_recovered (bodies : Bodies) (t : Task) (v : GoValue)
    (hv : t.fn = RValue.valid v) :
    goroutine true bodies t =
      (invoke bodies t).1 ++
        (match (invoke bodies t).2 with
          | none => []
          | some p =>
              [Action.hook { listener := some v, err := some (GoError.errorf (formatPanic p)) }]) ++
        (if t.wait = true then [Action.wgDone] else []) := by
  cases hi : (invoke bodies t).2 with
  | none => simp [goroutine, recoverDeferred, hi]
  | some p => simp [goroutine, recoverDeferred, hi, hv, RValue.Interface]

theorem goroutine_recovered_no_crash (bodies : Bodies) (t : Task) (v : GoValue)
    (hv : t.fn = RValue.valid v) : ∀ a ∈ goroutine true bodies t, a.isCrash = false := by
  rw [goroutine_recovered bodies t v hv]
  intro a ha
  rcases List.mem_append.mp ha with h | h
  · rcases List.mem_append.mp h with h | h
    · have := invoke_actions bodies t a h
      cases a <;> simp_all [Action.isCallOrHook, Action.isCrash]
    · cases hi : (invoke bodies t).2 with
      | none => simp [hi] at h
      | some p =>
        simp only [hi, List.mem_singleton] at h
        subst h
        rfl
  · by_cases hw : t.wait = true
    · simp only [hw, if_true, List.mem_singleton] at h
      subst h
      rfl
    · simp [hw] at h

theorem advance_mem :
    ∀ (gs : List (List Action)) (i : Nat) (a : Action) (gs2 : List (List Action)),
      advance i gs = some (a, gs2) → ∃ g ∈ gs, a ∈ g := by
  intro gs
  induction gs with
  | nil => intro i a gs2 h; cases i <;> simp [advance] at h
  | cons g gs ih =>
    intro i a gs2 h
    cases i with
    | zero =>
      cases g with
      | nil => simp [advance] at h
      | cons b rest =>
        simp only [advance, Option.some.injEq, Prod.mk.injEq] at h
        obtain ⟨rfl, _⟩ := h
        exact ⟨b :: rest, List.mem_cons_self _ _, List.mem_cons_self _ _⟩
    | succ i =>
      simp only [advance] at h
      cases hadv : advance i gs with
      | none => simp [hadv] at h
      | some w =>
        obtain ⟨b, gs3⟩ := w
        simp only [hadv, Option.some.injEq, Prod.mk.injEq] at h
        obtain ⟨rfl, _⟩ := h
        obtain ⟨g0, hg0, hb⟩ := ih i b gs3 hadv
        exact ⟨g0, List.mem_cons_of_mem _ hg0, hb⟩

/-- Every action performed is an action of the calling thread or of a goroutine
of the call. -/
theorem reach_log_origin (recoverer : Bool) (bodies : Bodies) (acts : List Action) :
    ∀ schedule : List Nat,
      ∀ a ∈ (runSchedule recoverer bodies (dispatch acts) schedule).log,
        a ∈ acts ∨ ∃ t ∈ spawned acts, a ∈ goroutine recoverer bodies t := by
  intro schedule
  induction schedule using List.reverseRecOn with
  | nil => intro a ha; simp [runSchedule, dispatch] at ha
  | append_singleton schedule thread ih =>
    rw [runSchedule_snoc]
    have hsuf := reach_caller_suffix recoverer bodies acts schedule
    have horigin := reach_origin recoverer bodies acts schedule
    generalize runSchedule recoverer bodies (dispatch acts) schedule = d at ih hsuf horigin ⊢
    rcases perform_cases recoverer bodies d thread with h1 | ⟨rest, _, hcaller, _, h1⟩ |
      ⟨t, rest, _, hcaller, h1⟩ | ⟨a, rest, _, hcaller, _, _, h1⟩ | ⟨i, a, gs, _, hadv, h1⟩
    · rw [h1]; exact ih
    · rw [h1]
      intro b hb
      rcases List.mem_append.mp hb with hb | hb
      · exact ih b hb
      · have hbe : b = Action.wgWait := by simpa using hb
        exact Or.inl (hsuf.subset (by rw [hcaller, hbe]; exact List.mem_cons_self _ _))
    · rw [h1]
      intro b hb
      rcases List.mem_append.mp hb with hb | hb
      · exact ih b hb
      · have hbe : b = Action.spawn t := by simpa using hb
        exact Or.inl (hsuf.subset (by rw [hcaller, hbe]; exact List.mem_cons_self _ _))
    · rw [h1, effect_log]
      intro b hb
      rcases List.mem_append.mp hb with hb | hb
      · exact ih b hb
      · have hbe : b = a := by simpa using hb
        exact Or.inl (hsuf.subset (by rw [hcaller, hbe]; exact List.mem_cons_self _ _))
    · rw [h1, effect_log]
      intro b hb
      rcases List.mem_append.mp hb with hb | hb
      · exact ih b hb
      · have hbe : b = a := by simpa using hb
        obtain ⟨g, hg, hag⟩ := advance_mem d.goroutines i a gs hadv
        obtain ⟨t, ht, htsuf⟩ := horigin g hg
        exact Or.inr ⟨t, ht, htsuf.subset (hbe ▸ hag)⟩

/-! ## The hook calls of a dispatch -/

theorem weight_hookWeight (c : HookCall) (l : List Action) :
    weight (hookWeight c) l = ((hookCalls l).count c : Nat) := by
  induction l with
  | nil => rfl
  | cons a l ih =>
    rw [weight_cons, ih]
    cases a with
    | hook c2 =>
      by_cases h : c2 = c
      · simp [hookWeight, hookCalls, h]
        ring
      · simp [hookWeight, hookCalls, h, List.count_cons_of_ne (Ne.symm h)]
    | _ => simp [hookWeight, hookCalls]

theorem spawnWeight_hookWeight (recoverer : Bool) (bodies : Bodies) (c : HookCall) :
    ∀ acts : List Action,
      spawnWeight recoverer bodies (hookWeight c) acts =
        ((taskHookCalls recoverer bodies (spawned acts)).count c : Nat) := by
  intro acts
  induction acts with
  | nil => rfl
  | cons a acts ih =>
    cases a with
    | spawn t =>
      simp only [spawnWeight, spawned, taskHookCalls, ih, weight_hookWeight, List.count_append]
      push_cast
      rfl
    | _ => simpa [spawnWeight, spawned] using ih

theorem sum_weight_all_nil (w : Action → Int) :
    ∀ gs : List (List Action), (∀ g ∈ gs, g = []) → (gs.map (weight w)).sum = 0 := by
  intro gs
  induction gs with
  | nil => intro _; rfl
  | cons g gs ih =>
    intro hall
    rw [List.map_cons, List.sum_cons, hall g (List.mem_cons_self _ _),
      ih (fun x hx => hall x (List.mem_cons_of_mem _ hx))]
    rfl

theorem remaining_finished (recoverer : Bool) (bodies : Bodies) (w : Action → Int)
    (d : Dispatch) (h : d.finished = true) : remaining recoverer bodies w d = 0 := by
  simp only [Dispatch.finished, Bool.and_eq_true, List.isEmpty_iff, List.all_eq_true] at h
  obtain ⟨hc, hg⟩ := h
  have hsum := sum_weight_all_nil w d.goroutines hg
  simp [remaining, hc, hsum, weight, spawnWeight]

/-- When a dispatch is over, the hook calls made are those of the goroutines of
the call, each made once. -/
theorem finished_hookCalls (recoverer : Bool) (bodies : Bodies) (acts : List Action)
    (hacts : hookCalls acts = []) (schedule : List Nat)
    (h : (runSchedule recoverer bodies (dispatch acts) schedule).finished = true) :
    (hookCalls (runSchedule recoverer bodies (dispatch acts) schedule).log).Perm
      (taskHookCalls recoverer bodies (spawned acts)) := by
  rw [List.perm_iff_count]
  intro c
  have hcons := runSchedule_conserves recoverer bodies (hookWeight c) (dispatch acts) schedule
  rw [remaining_finished recoverer bodies _ _ h] at hcons
  simp only [remaining, dispatch, weight_hookWeight, spawnWeight_hookWeight, hacts,
    hookCalls, List.map_nil, List.sum_nil, List.count_nil] at hcons
  have h2 : ((hookCalls (runSchedule recoverer bodies (dispatch acts) schedule).log).count c : Int) =
      ((taskHookCalls recoverer bodies (spawned acts)).count c : Nat) := by
    simpa [dispatch] using hcons
  exact_mod_cast h2

/-! ## The actions of a trigger call -/

theorem Trigger_actions (e : Event) (ro : RangeOrder) (arguments : List Iface) :
    (Trigger e ro arguments).2 = (spawned (Trigger e ro arguments).2).map Action.spawn := by
  have h := (rangeFuncs_spec false arguments (ro.order e.funcs.keys) e.funcs
    [] (order_nodup e ro) (fun k hk => (order_mem e ro k).mp hk)).1
  rw [spawned_Trigger]
  simp only [Trigger, trigger]
  simp only [Bool.false_eq_true, if_false]
  rw [h]
  simp [List.map_map, Function.comp_def]

/-- The calling thread of a trigger performs only `wg.Add`, `go` statements and
`wg.Wait`. -/
theorem step_trigger_actions (e : Event) (op : Op) (hop : op.isTrigger = true) :
    ∀ a ∈ (step e op).2.actions, a.isCallOrHook = false ∧ a.isCrash = false := by
  cases op with
  | On l => simp [Op.isTrigger] at hop
  | Once l => simp [Op.isTrigger] at hop
  | Off l => simp [Op.isTrigger] at hop
  | Trigger ro arguments =>
    intro a ha
    simp only [step] at ha
    rw [Trigger_actions] at ha
    obtain ⟨t, _, rfl⟩ := List.mem_map.mp ha
    exact ⟨rfl, rfl⟩
  | TriggerWait ro arguments =>
    intro a ha
    simp only [step] at ha
    rw [TriggerWait_actions] at ha
    rcases List.mem_cons.mp ha with rfl | ha
    · exact ⟨rfl, rfl⟩
    · rcases List.mem_append.mp ha with ha | ha
      · obtain ⟨t, _, rfl⟩ := List.mem_map.mp ha
        exact ⟨rfl, rfl⟩
      · have : a = Action.wgWait := by simpa using ha
        subst this
        exact ⟨rfl, rfl⟩

theorem hookCalls_eq_nil (acts : List Action) (h : ∀ a ∈ acts, a.isCallOrHook = false) :
    hookCalls acts = [] := by
  induction acts with
  | nil => rfl
  | cons a acts ih =>
    have ha := h a (List.mem_cons_self _ _)
    have ih2 := ih (fun b hb => h b (List.mem_cons_of_mem _ hb))
    cases a <;> simp_all [hookCalls, Action.isCallOrHook]

/-- The goroutines of a trigger are those of keys of the map. -/
theorem step_trigger_spawned_fn (e : Event) (op : Op) (hop : op.isTrigger = true) :
    ∀ t ∈ spawned (step e op).2.actions, t.fn ∈ e.funcs.keys := by
  cases op with
  | On l => simp [Op.isTrigger] at hop
  | Once l => simp [Op.isTrigger] at hop
  | Off l => simp [Op.isTrigger] at hop
  | Trigger ro arguments =>
    intro t ht
    simp only [step] at ht
    rw [spawned_Trigger] at ht
    obtain ⟨fn, hfn, rfl⟩ := List.mem_map.mp ht
    exact (ro.perm e.funcs.keys).mem_iff.mp hfn
  | TriggerWait ro arguments =>
    intro t ht
    simp only [step] at ht
    rw [spawned_TriggerWait] at ht
    obtain ⟨fn, hfn, rfl⟩ := List.mem_map.mp ht
    exact (ro.perm e.funcs.keys).mem_iff.mp hfn

theorem valid_of_ne_invalid (fn : RValue) (h : fn ≠ RValue.invalid) :
    ∃ v, fn = RValue.valid v := by
  cases fn with
  | invalid => exact absurd rfl h
  | valid v => exact ⟨v, rfl⟩

/-- With a recovery hook and only valid keys in the map, no interleaving of the
threads of a trigger ends the program. -/
theorem trigger_never_crashes (e : Event)
    (hvalid : ∀ k ∈ e.funcs.keys, k ≠ RValue.invalid) (op : Op) (hop : op.isTrigger = true)
    (bodies : Bodies) (schedule : List Nat) :
    (runSchedule true bodies (dispatch (step e op).2.actions) schedule).crashed = none := by
  cases hc : (runSchedule true bodies (dispatch (step e op).2.actions) schedule).crashed with
  | none => rfl
  | some p =>
    exfalso
    have hlog := reach_crashed true bodies _ schedule p hc
    rcases reach_log_origin true bodies _ schedule _ hlog with h | ⟨t, ht, h⟩
    · have := (step_trigger_actions e op hop _ h).2
      simp [Action.isCrash] at this
    · obtain ⟨v, hv⟩ := valid_of_ne_invalid t.fn
        (hvalid _ (step_trigger_spawned_fn e op hop t ht))
      have := goroutine_recovered_no_crash bodies t v hv _ h
      simp [Action.isCrash] at this

/-! ## Every dispatch under a recovery hook can be completed -/

theorem advance_exists :
    ∀ (gs : List (List Action)) (g : List Action), g ∈ gs → g ≠ [] →
      ∃ i a gs2, advance i gs = some (a, gs2) := by
  intro gs
  induction gs with
  | nil => intro g hg; simp at hg
  | cons g0 gs ih =>
    intro g hg hne
    cases g0 with
    | cons b rest => exact ⟨0, b, rest :: gs, rfl⟩
    | nil =>
      rcases List.mem_cons.mp hg with rfl | hg
      · exact absurd rfl hne
      · obtain ⟨i, a, gs2, h⟩ := ih g hg hne
        exact ⟨i + 1, a, [] :: gs2, by simp [advance, h]⟩

theorem perform_goroutine_log (recoverer : Bool) (bodies : Bodies) (d : Dispatch)
    (hc : d.crashed = none) (i : Nat) (a : Action) (gs : List (List Action))
    (hadv : advance i d.goroutines = some (a, gs)) :
    (perform recoverer bodies d (i + 1)).log = d.log ++ [a] := by
  unfold perform
  simp only [hc, hadv]
  rw [effect_log]

theorem perform_caller_log (recoverer : Bool) (bodies : Bodies) (d : Dispatch)
    (hc : d.crashed = none) (a : Action) (rest : List Action) (hcaller : d.caller = a :: rest)
    (hwait : a = Action.wgWait → d.counter = 0) :
    (perform recoverer bodies d 0).log = d.log ++ [a] := by
  unfold perform
  cases a with
  | wgWait => simp [hc, hcaller, hwait rfl]
  | spawn t => simp [hc, hcaller]
  | wgAdd n => simp [hc, hcaller, effect_log]
  | call fn values => simp [hc, hcaller, effect_log]
  | hook c => simp [hc, hcaller, effect_log]
  | wgDone => simp [hc, hcaller, effect_log]
  | crash p => simp [hc, hcaller, effect_log]

/-- Some thread can take a step as long as the dispatch is not over, the program
has not ended, and a blocked `wg.Wait()` leaves a goroutine with actions. -/
theorem progress (recoverer : Bool) (bodies : Bodies) (d : Dispatch)
    (hc : d.crashed = none) (hnf : d.finished = false)
    (hblock : ∀ rest, d.caller = Action.wgWait :: rest → d.counter ≠ 0 →
      ∃ g ∈ d.goroutines, g ≠ []) :
    ∃ thread a, (perform recoverer bodies d thread).log = d.log ++ [a] := by
  cases hcaller : d.caller with
  | nil =>
    have hex : ∃ g ∈ d.goroutines, g ≠ [] := by
      by_contra hall
      push_neg at hall
      have : d.finished = true := by
        simp only [Dispatch.finished, Bool.and_eq_true, List.isEmpty_iff, List.all_eq_true]
        exact ⟨hcaller, hall⟩
      rw [this] at hnf
      exact Bool.noConfusion hnf
    obtain ⟨g, hg, hne⟩ := hex
    obtain ⟨i, a, gs2, hadv⟩ := advance_exists d.goroutines g hg hne
    exact ⟨i + 1, a, perform_goroutine_log recoverer bodies d hc i a gs2 hadv⟩
  | cons a rest =>
    by_cases hw : a = Action.wgWait ∧ d.counter ≠ 0
    · obtain ⟨g, hg, hne⟩ := hblock rest (by rw [hcaller, hw.1]) hw.2
      obtain ⟨i, b, gs2, hadv⟩ := advance_exists d.goroutines g hg hne
      exact ⟨i + 1, b, perform_goroutine_log recoverer bodies d hc i b gs2 hadv⟩
    · refine ⟨0, a, perform_caller_log recoverer bodies d hc a rest hcaller ?_⟩
      intro ha
      by_contra h0
      exact hw ⟨ha, h0⟩

theorem weight_one_nonneg (l : List Action) : 0 ≤ weight (fun _ => 1) l := by
  induction l with
  | nil => simp [weight]
  | cons a l ih =>
    rw [weight_cons]
    omega

theorem spawnWeight_one_nonneg (recoverer : Bool) (bodies : Bodies) (l : List Action) :
    0 ≤ spawnWeight recoverer bodies (fun _ => 1) l := by
  induction l with
  | nil => simp [spawnWeight]
  | cons a l ih =>
    cases a with
    | spawn t =>
      simp only [spawnWeight]
      have := weight_one_nonneg (goroutine recoverer bodies t)
      omega
    | _ => simpa [spawnWeight] using ih

theorem sum_weight_one_nonneg (gs : List (List Action)) :
    0 ≤ (gs.map (weight (fun _ => 1))).sum := by
  induction gs with
  | nil => simp
  | cons g gs ih =>
    simp only [List.map_cons, List.sum_cons]
    have := weight_one_nonneg g
    omega

theorem remaining_one_nonneg (recoverer : Bool) (bodies : Bodies) (d : Dispatch) :
    0 ≤ remaining recoverer bodies (fun _ => 1) d := by
  have h1 := weight_one_nonneg d.caller
  have h2 := spawnWeight_one_nonneg recoverer bodies d.caller
  have h3 := sum_weight_one_nonneg d.goroutines
  simp only [remaining]
  omega

/-- From every state that a dispatch reaches there is a continuation of the
schedule after which the dispatch is over, when the program never ends by a
panic and a blocked `wg.Wait()` always leaves a goroutine with actions. -/
theorem can_finish (recoverer : Bool) (bodies : Bodies) (acts : List Action)
    (hcrash : ∀ schedule,
      (runSchedule recoverer bodies (dispatch acts) schedule).crashed = none)
    (hblock : ∀ schedule rest,
      (runSchedule recoverer bodies (dispatch acts) schedule).caller = Action.wgWait :: rest →
      (runSchedule recoverer bodies (dispatch acts) schedule).counter ≠ 0 →
      ∃ g ∈ (runSchedule recoverer bodies (dispatch acts) schedule).goroutines, g ≠ []) :
    ∀ (n : Nat) (schedule : List Nat),
      remaining recoverer bodies (fun _ => 1)
        (runSchedule recoverer bodies (dispatch acts) schedule) ≤ n →
      ∃ more, (runSchedule recoverer bodies (dispatch acts) (schedule ++ more)).finished =
        true := by
  intro n
  induction n with
  | zero =>
    intro schedule hle
    cases hfin : (runSchedule recoverer bodies (dispatch acts) schedule).finished with
    | true => exact ⟨[], by simpa using hfin⟩
    | false =>
      exfalso
      obtain ⟨thread, a, hlog⟩ := progress recoverer bodies _ (hcrash schedule) hfin
        (hblock schedule)
      have hcons := perform_conserves recoverer bodies (fun _ => 1)
        (runSchedule recoverer bodies (dispatch acts) schedule) thread
      rw [hlog, weight_append, weight_cons, weight_nil] at hcons
      have hnn := remaining_one_nonneg recoverer bodies
        (perform recoverer bodies (runSchedule recoverer bodies (dispatch acts) schedule) thread)
      simp only [Nat.cast_zero] at hle
      omega
  | succ n ih =>
    intro schedule hle
    cases hfin : (runSchedule recoverer bodies (dispatch acts) schedule).finished with
    | true => exact ⟨[], by simpa using hfin⟩
    | false =>
      obtain ⟨thread, a, hlog⟩ := progress recoverer bodies _ (hcrash schedule) hfin
        (hblock schedule)
      have hcons := perform_conserves recoverer bodies (fun _ => 1)
        (runSchedule recoverer bodies (dispatch acts) schedule) thread
      rw [hlog, weight_append, weight_cons, weight_nil] at hcons
      have hle2 : remaining recoverer bodies (fun _ => 1)
          (runSchedule recoverer bodies (dispatch acts) (schedule ++ [thread])) ≤ n := by
        rw [runSchedule_snoc]
        push_cast at hle
        omega
      obtain ⟨more, hmore⟩ := ih (schedule ++ [thread]) hle2
      exact ⟨thread :: more, by simpa using hmore⟩

theorem wait_is_last (rest : List Action) :
    ∀ tasks : List Task,
      Action.wgWait :: rest <:+ tasks.map Action.spawn ++ [Action.wgWait] → rest = [] := by
  intro tasks
  induction tasks with
  | nil =>
    intro h
    have hlen := h.length_le
    simp only [List.map_nil, List.nil_append, List.length_cons, List.length_nil] at hlen
    exact List.length_eq_zero.mp (by omega)
  | cons t tasks ih =>
    intro h
    simp only [List.map_cons, List.cons_append] at h
    rcases List.suffix_cons_iff.mp h with h1 | h1
    · have := (List.cons.inj h1).1
      exact Action.noConfusion this
    · exact ih h1

/-- In a `TriggerWait`, when `wg.Wait()` is blocked some goroutine has still
actions to perform. -/
theorem waitDispatch_blocked (recoverer : Bool) (bodies : Bodies) (tasks : List Task)
    (hw : ∀ t ∈ tasks, t.wait = true) (schedule : List Nat) (rest : List Action)
    (hcaller : (runSchedule recoverer bodies
      (dispatch (Action.wgAdd tasks.length :: (tasks.map Action.spawn ++ [Action.wgWait])))
      schedule).caller = Action.wgWait :: rest)
    (hne : (runSchedule recoverer bodies
      (dispatch (Action.wgAdd tasks.length :: (tasks.map Action.spawn ++ [Action.wgWait])))
      schedule).counter ≠ 0) :
    ∃ g ∈ (runSchedule recoverer bodies
      (dispatch (Action.wgAdd tasks.length :: (tasks.map Action.spawn ++ [Action.wgWait])))
      schedule).goroutines, g ≠ [] := by
  have hcounter := (waitDispatch_counter recoverer bodies tasks hw schedule).2
  have hsuf := reach_caller_suffix recoverer bodies
    (Action.wgAdd tasks.length :: (tasks.map Action.spawn ++ [Action.wgWait])) schedule
  generalize runSchedule recoverer bodies
    (dispatch (Action.wgAdd tasks.length :: (tasks.map Action.spawn ++ [Action.wgWait])))
    schedule = d at hcaller hne hcounter hsuf ⊢
  rw [hcaller] at hsuf
  have hsuf2 : Action.wgWait :: rest <:+ tasks.map Action.spawn ++ [Action.wgWait] := by
    rcases List.suffix_cons_iff.mp hsuf with h1 | h1
    · exact Action.noConfusion (List.cons.inj h1).1
    · exact h1
  have hrest := wait_is_last rest tasks hsuf2
  subst hrest
  have hc := hcounter (by rw [hcaller]; simp)
  rw [hcaller] at hc
  have hpos : 0 < (d.goroutines.filter unfinished).length := by
    by_contra h0
    have h00 : (d.goroutines.filter unfinished).length = 0 := by omega
    rw [h00] at hc
    simp [spawned] at hc
    exact hne hc
  obtain ⟨g, hg⟩ := List.exists_mem_of_length_pos hpos
  obtain ⟨hg1, hg2⟩ := List.mem_filter.mp hg
  refine ⟨g, hg1, ?_⟩
  rintro rfl
  simp [unfinished] at hg2

/-- With a recovery hook and only valid keys in the map, every state that the
threads of a trigger reach has a continuation after which the calling thread
has returned and every goroutine has performed all its actions. -/
theorem trigger_can_finish (e : Event)
    (hvalid : ∀ k ∈ e.funcs.keys, k ≠ RValue.invalid) (op : Op) (hop : op.isTrigger = true)
    (bodies : Bodies) (schedule : List Nat) :
    ∃ more, (runSchedule true bodies (dispatch (step e op).2.actions)
      (schedule ++ more)).finished = true := by
  have hnn := remaining_one_nonneg true bodies
    (runSchedule true bodies (dispatch (step e op).2.actions) schedule)
  refine can_finish true bodies _ (trigger_never_crashes e hvalid op hop bodies) ?_
    (remaining true bodies (fun _ => 1)
      (runSchedule true bodies (dispatch (step e op).2.actions) schedule)).toNat schedule
    (by rw [Int.toNat_of_nonneg hnn])
  intro s rest hcaller hne
  cases op with
  | On l => simp [Op.isTrigger] at hop
  | Once l => simp [Op.isTrigger] at hop
  | Off l => simp [Op.isTrigger] at hop
  | Trigger ro arguments =>
    exfalso
    have hsuf := reach_caller_suffix true bodies (step e (Op.Trigger ro arguments)).2.actions s
    rw [hcaller] at hsuf
    have hmem : Action.wgWait ∈ (step e (Op.Trigger ro arguments)).2.actions :=
      hsuf.subset (List.mem_cons_self _ _)
    simp only [step] at hmem
    rw [Trigger_actions] at hmem
    obtain ⟨t, _, ht⟩ := List.mem_map.mp hmem
    exact Action.noConfusion ht
  | TriggerWait ro arguments =>
    simp only [step] at hcaller hne ⊢
    have hacts := TriggerWait_actions e ro arguments
    have hw := spawned_TriggerWait_wait e ro arguments
    generalize spawned (TriggerWait e ro arguments).2 = tasks at hacts hw
    rw [hacts] at hcaller hne ⊢
    exact waitDispatch_blocked true bodies tasks hw s rest hcaller hne

/-! ## When a dispatch is over, every goroutine has performed all its actions -/

theorem weight_occurrence_nonneg (a : Action) (l : List Action) :
    0 ≤ weight (occurrence a) l := by
  induction l with
  | nil => simp [weight]
  | cons b l ih =>
    rw [weight_cons]
    have : 0 ≤ occurrence a b := by
      unfold occurrence
      split_ifs <;> omega
    omega

theorem weight_occurrence_pos (a : Action) (l : List Action) (h : a ∈ l) :
    1 ≤ weight (occurrence a) l := by
  induction l with
  | nil => simp at h
  | cons b l ih =>
    rw [weight_cons]
    rcases List.mem_cons.mp h with rfl | h
    · have := weight_occurrence_nonneg a l
      simp only [occurrence, if_true]
      omega
    · have h1 := ih h
      have : 0 ≤ occurrence a b := by
        unfold occurrence
        split_ifs <;> omega
      omega

theorem mem_of_weight_occurrence_pos (a : Action) (l : List Action)
    (h : 1 ≤ weight (occurrence a) l) : a ∈ l := by
  induction l with
  | nil => simp [weight] at h
  | cons b l ih =>
    rw [weight_cons] at h
    by_cases hb : b = a
    · exact hb ▸ List.mem_cons_self _ _
    · simp only [occurrence, hb, if_false, zero_add] at h
      exact List.mem_cons_of_mem _ (ih h)

theorem spawnWeight_occurrence_nonneg (recoverer : Bool) (bodies : Bodies) (a : Action)
    (l : List Action) : 0 ≤ spawnWeight recoverer bodies (occurrence a) l := by
  induction l with
  | nil => simp [spawnWeight]
  | cons b l ih =>
    cases b with
    | spawn t =>
      simp only [spawnWeight]
      have := weight_occurrence_nonneg a (goroutine recoverer bodies t)
      omega
    | _ => simpa [spawnWeight] using ih

theorem spawnWeight_occurrence_pos (recoverer : Bool) (bodies : Bodies) (a : Action)
    (t : Task) (ha : a ∈ goroutine recoverer bodies t) :
    ∀ l : List Action, t ∈ spawned l → 1 ≤ spawnWeight recoverer bodies (occurrence a) l := by
  intro l
  induction l with
  | nil => intro h; simp [spawned] at h
  | cons b l ih =>
    intro h
    cases b with
    | spawn t2 =>
      simp only [spawned, List.mem_cons] at h
      simp only [spawnWeight]
      rcases h with rfl | h
      · have h1 := weight_occurrence_pos a _ ha
        have h2 := spawnWeight_occurrence_nonneg recoverer bodies a l
        omega
      · have h1 := ih h
        have h2 := weight_occurrence_nonneg a (goroutine recoverer bodies t2)
        omega
    | _ =>
      simp only [spawned] at h
      simpa [spawnWeight] using ih h

/-- When a dispatch is over, every action of every goroutine of the call has
been performed. -/
theorem finished_performed (recoverer : Bool) (bodies : Bodies) (acts : List Action)
    (schedule : List Nat)
    (h : (runSchedule recoverer bodies (dispatch acts) schedule).finished = true)
    (t : Task) (ht : t ∈ spawned acts) (a : Action) (ha : a ∈ goroutine recoverer bodies t) :
    a ∈ (runSchedule recoverer bodies (dispatch acts) schedule).log := by
  apply mem_of_weight_occurrence_pos
  have hcons := runSchedule_conserves recoverer bodies (occurrence a) (dispatch acts) schedule
  rw [remaining_finished recoverer bodies _ _ h] at hcons
  have h1 := weight_occurrence_nonneg a acts
  have h2 := spawnWeight_occurrence_pos recoverer bodies a t ha acts ht
  simp only [remaining, dispatch, weight_nil, List.map_nil, List.sum_nil] at hcons ⊢
  omega

/-! ## After the end of the program -/

theorem perform_crashed (recoverer : Bool) (bodies : Bodies) (d : Dispatch) (p : PanicValue)
    (h : d.crashed = some p) (thread : Nat) : perform recoverer bodies d thread = d := by
  unfold perform
  simp [h]

theorem runSchedule_crashed (recoverer : Bool) (bodies : Bodies) (p : PanicValue) :
    ∀ (schedule : List Nat) (d : Dispatch), d.crashed = some p →
      runSchedule recoverer bodies d schedule = d := by
  intro schedule
  induction schedule with
  | nil => intro d _; rfl
  | cons t ts ih =>
    intro d h
    have h1 := perform_crashed recoverer bodies d p h t
    simp only [runSchedule, List.foldl_cons] at ih ⊢
    rw [h1]
    exact ih d h

/-! ## The claims -/

/-- C1: a single `Trigger` or `TriggerWait` call spawns exactly one goroutine for
each value that is a key of `funcs` when the call starts (the once-listeners it
deletes included) and none for any other value, each with the argument list of
the call, so the number of goroutines is `len(e.funcs)` before the call.  In the
situation of `TestEvent` (three `On` and two `Once` listeners) the first
`TriggerWait` spawns five goroutines and the second one three, whatever the range
orders are. -/
theorem C1_trigger_schedules_each_registered_listener_once
    (e : Event) (ro : RangeOrder) (arguments : List Iface) :
    (∀ fn, (scheduled (Trigger e ro arguments).2).count fn = if fn ∈ e.funcs then 1 else 0) ∧
    (∀ fn, (scheduled (TriggerWait e ro arguments).2).count fn =
      if fn ∈ e.funcs then 1 else 0) ∧
    (scheduled (Trigger e ro arguments).2).length = e.funcs.keys.length ∧
    (scheduled (TriggerWait e ro arguments).2).length = e.funcs.keys.length ∧
    (∀ t ∈ spawned (Trigger e ro arguments).2, t.arguments = arguments) ∧
    (∀ t ∈ spawned (TriggerWait e ro arguments).2, t.arguments = arguments) ∧
    (∀ ro2 : RangeOrder,
      (run (New false)
          (threeOnTwoOnce ++ [Op.TriggerWait ro [], Op.TriggerWait ro2 []])).2.map
        (fun o => (scheduled o.actions).length) = [0, 0, 0, 0, 0, 5, 3]) := by
  refine ⟨?_, ?_, ?_, ?_, ?_, ?_, ?_⟩
  · intro fn
    rw [scheduled_Trigger, count_order]
  · intro fn
    rw [scheduled_TriggerWait, count_order]
  · rw [scheduled_Trigger, length_order]
  · rw [scheduled_TriggerWait, length_order]
  · intro t ht
    rw [spawned_Trigger] at ht
    obtain ⟨fn, _, rfl⟩ := List.mem_map.mp ht
    rfl
  · intro t ht
    rw [spawned_TriggerWait] at ht
    obtain ⟨fn, _, rfl⟩ := List.mem_map.mp ht
    rfl
  · intro ro2
    rw [run_append]
    simp only [run, step, List.map_append, List.map, scheduled_TriggerWait, length_order,
      TriggerWait_keys]
    decide

/-- C2: for a function `f`, after `n ≥ 1` calls `Once(f)` followed by `k ≥ 1`
triggers, the first trigger spawns exactly one goroutine for `f` and no other
call spawns one, and `f` is not a key of `funcs` after the first trigger nor
after any later one. -/
theorem C2_once_listener_fires_exactly_once
    (e : Event) (f : Iface) (hf : (reflectValueOf f).Kind = Kind.Func)
    (n : Nat) (hn : 1 ≤ n) (ts : List Op) (hk : 1 ≤ ts.length)
    (hts : ∀ op ∈ ts, op.isTrigger = true) :
    (run e (List.replicate n (Op.Once f) ++ ts)).2.map
        (fun o => (scheduled o.actions).count (reflectValueOf f)) =
          List.replicate n 0 ++ 1 :: List.replicate (ts.length - 1) 0 ∧
      ∀ m, 1 ≤ m →
        reflectValueOf f ∉ (run e (List.replicate n (Op.Once f) ++ ts.take m)).1.funcs := by
  obtain ⟨n, rfl⟩ : ∃ n0, n = n0 + 1 := ⟨n - 1, by omega⟩
  cases ts with
  | nil => simp at hk
  | cons t ts =>
    have ht : t.isTrigger = true := hts t (List.mem_cons_self _ _)
    have hlook := run_replicate_Once_lookup f hf n e
    have hmem : reflectValueOf f ∈ (run e (List.replicate (n + 1) (Op.Once f))).1.funcs := by
      rw [← AList.lookup_isSome, hlook]
      rfl
    have habs : reflectValueOf f ∉
        (step (run e (List.replicate (n + 1) (Op.Once f))).1 t).1.funcs := by
      rw [← AList.lookup_eq_none, step_trigger_lookup _ t ht, hlook]
      simp
    obtain ⟨h1, h2⟩ := run_triggers_absent (reflectValueOf f) ts _
      (fun op hop => hts op (List.mem_cons_of_mem _ hop)) habs
    constructor
    · rw [run_append, List.map_append, run_replicate_Once_counts, run_cons, List.map_cons, h1,
        step_trigger_count _ t ht, if_pos hmem]
      simp
    · intro m hm
      obtain ⟨m, rfl⟩ : ∃ m0, m = m0 + 1 := ⟨m - 1, by omega⟩
      rw [run_append, List.take_succ_cons, run_cons]
      exact h2 m

/-- Witness of C2: two calls `Once(f)` and then a `Trigger` and a `TriggerWait`
on a new `Event`. -/
theorem C2_once_listener_fires_exactly_once_witness :
    (run (New false) (List.replicate 2 (Op.Once (plainListener 1)) ++
          [Op.Trigger listOrder [], Op.TriggerWait reverseOrder []])).2.map
        (fun o => (scheduled o.actions).count (reflectValueOf (plainListener 1))) =
          List.replicate 2 0 ++ 1 :: List.replicate
            ([Op.Trigger listOrder [], Op.TriggerWait reverseOrder []].length - 1) 0 ∧
      ∀ m, 1 ≤ m →
        reflectValueOf (plainListener 1) ∉
          (run (New false) (List.replicate 2 (Op.Once (plainListener 1)) ++
            [Op.Trigger listOrder [], Op.TriggerWait reverseOrder []].take m)).1.funcs :=
  C2_once_listener_fires_exactly_once (New false) (plainListener 1) (by decide) 2 (by decide)
    [Op.Trigger listOrder [], Op.TriggerWait reverseOrder []] (by decide) (by decide)

/-- C3: a trigger leaves every entry of `funcs` whose flag is false in place
with its flag; so after `On(f)` for a function `f`, in every sequence of calls
without `Off(f)` and `Once(f)` each trigger spawns exactly one goroutine for `f`
and `f` stays registered with flag false (after `k` triggers `f` has been
scheduled `k` times); and after `Off(f)`, in every sequence of calls without
`On(f)` and `Once(f)`, no call spawns a goroutine for `f`. -/
theorem C3_on_listener_fires_on_every_trigger
    (e : Event) (f : Iface) (hf : (reflectValueOf f).Kind = Kind.Func) :
    (∀ (ro : RangeOrder) (wg : Bool) (arguments : List Iface) (k : RValue),
      e.funcs.lookup k = some false →
        (trigger e ro wg arguments).1.funcs.lookup k = some false) ∧
    (∀ ops : List Op, (∀ op ∈ ops, op.removesOrOnce (reflectValueOf f) = false) →
      (run (step e (Op.On f)).1 ops).2.map
          (fun o => (scheduled o.actions).count (reflectValueOf f)) =
            ops.map (fun op => if op.isTrigger = true then 1 else 0) ∧
        (run (step e (Op.On f)).1 ops).1.funcs.lookup (reflectValueOf f) = some false) ∧
    (∀ ts : List Op, (∀ op ∈ ts, op.isTrigger = true) →
      ((run (step e (Op.On f)).1 ts).2.map
          (fun o => (scheduled o.actions).count (reflectValueOf f))).sum = ts.length ∧
        (run (step e (Op.On f)).1 ts).1.funcs.lookup (reflectValueOf f) = some false) ∧
    (∀ ops : List Op, (∀ op ∈ ops, op.registers (reflectValueOf f) = false) →
      (run (step e (Op.Off f)).1 ops).2.map
          (fun o => (scheduled o.actions).count (reflectValueOf f)) =
            List.replicate ops.length 0 ∧
        reflectValueOf f ∉ (run (step e (Op.Off f)).1 ops).1.funcs) := by
  have hon : (step e (Op.On f)).1.funcs.lookup (reflectValueOf f) = some false := by
    rw [step_lookup_On]
    simp [hf]
  have hoff : (step e (Op.Off f)).1.funcs.lookup (reflectValueOf f) = none := by
    rw [step_lookup_Off]
    simp [hf]
  refine ⟨?_, ?_, ?_, ?_⟩
  · intro ro wg arguments k hk
    rw [trigger_lookup, hk]
    simp
  · intro ops hops
    exact run_keeps_false (reflectValueOf f) ops _ hon hops
  · intro ts hts
    obtain ⟨h1, h2⟩ := run_keeps_false (reflectValueOf f) ts _ hon
      (fun op hop => isTrigger_removesOrOnce _ op (hts op hop))
    exact ⟨by rw [h1, sum_map_isTrigger ts hts], h2⟩
  · intro ops hops
    obtain ⟨h1, h2⟩ := run_keeps_absent (reflectValueOf f) ops _ hoff hops
    exact ⟨h1, AList.lookup_eq_none.mp h2⟩

/-- Witness of C3: the listener with closure pointer 7 on the state of
`TestEvent` after its five registrations. -/
theorem C3_on_listener_fires_on_every_trigger_witness :
    ((run (step (run (New false) threeOnTwoOnce).1 (Op.On (plainListener 7))).1
        [Op.TriggerWait listOrder [], Op.Trigger reverseOrder []]).2.map
          (fun o => (scheduled o.actions).count (reflectValueOf (plainListener 7)))).sum = 2 ∧
      (run (step (run (New false) threeOnTwoOnce).1 (Op.On (plainListener 7))).1
        [Op.TriggerWait listOrder [], Op.Trigger reverseOrder []]).1.funcs.lookup
          (reflectValueOf (plainListener 7)) = some false :=
  (C3_on_listener_fires_on_every_trigger (run (New false) threeOnTwoOnce).1 (plainListener 7)
    (by decide)).2.2.1 [Op.TriggerWait listOrder [], Op.Trigger reverseOrder []] (by decide)

/-- C4: for every sequence of `On`, `Once` and `Off` calls with functions as
arguments, from any state: no call panics or calls the hook; the resulting map
is the fold of the sequence over the registry of the specification (`On(f)`
sets `f` to false, `Once(f)` sets `f` to true, `Off(f)` erases `f`), with at
most one entry per key; the flag of `f` is that of the last `On(f)` or
`Once(f)` when no `Off(f)` follows it, `f` is unregistered when the last call
on `f` is `Off(f)`, and in particular after `Once(f)` followed by `Off(f)`. -/
theorem C4_registry_is_fold_of_set_with_overwrite
    (e : Event) (ops : List Op) (hops : ∀ op ∈ ops, op.registersFunc = true) :
    (∀ o ∈ (run e ops).2, o.panic = none ∧ o.hookCalls = []) ∧
    abstraction (run e ops).1.funcs = specFold (abstraction e.funcs) ops ∧
    (∀ k, (run e ops).1.funcs.keys.count k ≤ 1) ∧
    (∀ (f : Iface) (pre post : List Op), ops = pre ++ Op.On f :: post →
      (∀ o ∈ post, o.touches (reflectValueOf f) = false) →
        (run e ops).1.funcs.lookup (reflectValueOf f) = some false) ∧
    (∀ (f : Iface) (pre post : List Op), ops = pre ++ Op.Once f :: post →
      (∀ o ∈ post, o.touches (reflectValueOf f) = false) →
        (run e ops).1.funcs.lookup (reflectValueOf f) = some true) ∧
    (∀ (f : Iface) (pre post : List Op), ops = pre ++ Op.Off f :: post →
      (∀ o ∈ post, o.touches (reflectValueOf f) = false) →
        reflectValueOf f ∉ (run e ops).1.funcs) ∧
    (∀ (f : Iface) (pre : List Op), ops = pre ++ [Op.Once f, Op.Off f] →
        reflectValueOf f ∉ (run e ops).1.funcs) := by
  obtain ⟨h1, h2⟩ := run_registersFunc ops e hops
  have hfunc : ∀ (op : Op) (pre post : List Op), ops = pre ++ op :: post →
      op.registersFunc = true ∧ ∀ o ∈ post, o.registersFunc = true := by
    intro op pre post h
    subst h
    exact ⟨hops op (by simp), fun o ho => hops o (by simp [ho])⟩
  refine ⟨h1, h2, fun k => List.nodup_iff_count_le_one.mp (AList.keys_nodup _) k, ?_, ?_, ?_, ?_⟩
  · intro f pre post h hpost
    obtain ⟨hop, hrest⟩ := hfunc _ pre post h
    have hk : (reflectValueOf f).Kind = Kind.Func := by simpa [Op.registersFunc] using hop
    rw [h]
    refine run_last_call e f (Op.On f) (some false) ?_ pre post
      (fun o ho => ⟨hrest o ho, hpost o ho⟩)
    intro e2
    rw [step_lookup_On]
    simp [hk]
  · intro f pre post h hpost
    obtain ⟨hop, hrest⟩ := hfunc _ pre post h
    have hk : (reflectValueOf f).Kind = Kind.Func := by simpa [Op.registersFunc] using hop
    rw [h]
    refine run_last_call e f (Op.Once f) (some true) ?_ pre post
      (fun o ho => ⟨hrest o ho, hpost o ho⟩)
    intro e2
    rw [step_lookup_Once]
    simp [hk]
  · intro f pre post h hpost
    obtain ⟨hop, hrest⟩ := hfunc _ pre post h
    have hk : (reflectValueOf f).Kind = Kind.Func := by simpa [Op.registersFunc] using hop
    rw [h, ← AList.lookup_eq_none]
    refine run_last_call e f (Op.Off f) none ?_ pre post
      (fun o ho => ⟨hrest o ho, hpost o ho⟩)
    intro e2
    rw [step_lookup_Off]
    simp [hk]
  · intro f pre h
    have h2 : ops = (pre ++ [Op.Once f]) ++ Op.Off f :: [] := by simp [h]
    obtain ⟨hop, _⟩ := hfunc _ _ _ h2
    have hk : (reflectValueOf f).Kind = Kind.Func := by simpa [Op.registersFunc] using hop
    rw [h2, ← AList.lookup_eq_none]
    refine run_last_call e f (Op.Off f) none ?_ (pre ++ [Op.Once f]) [] (by simp)
    intro e2
    rw [step_lookup_Off]
    simp [hk]

/-- Witness of C4: `Once(f)`, `On(g)`, `Off(f)`, `Once(g)` on a new `Event`, as
in the last lines of `TestEvent`. -/
theorem C4_registry_is_fold_of_set_with_overwrite_witness :
    abstraction (run (New false)
        [Op.Once (plainListener 1), Op.On (plainListener 2), Op.Off (plainListener 1),
          Op.Once (plainListener 2)]).1.funcs =
      specFold (abstraction (New false).funcs)
        [Op.Once (plainListener 1), Op.On (plainListener 2), Op.Off (plainListener 1),
          Op.Once (plainListener 2)] :=
  (C4_registry_is_fold_of_set_with_overwrite (New false)
    [Op.Once (plainListener 1), Op.On (plainListener 2), Op.Off (plainListener 1),
      Op.Once (plainListener 2)] (by decide)).2.1

/-- C5: for each of `On`, `Once` and `Off` and every value `v` that is not a
function: without a recovery hook the call panics with exactly `ErrNotFunc`;
with a recovery hook the hook is called exactly once, with `(v, ErrNotFunc)`,
and the call returns.  For a function the call returns without calling the
hook. -/
theorem C5_non_function_argument_policy (e : Event) (v : Iface) :
    ((reflectValueOf v).Kind ≠ Kind.Func → e.Recoverer = false →
      On e v = Except.error (PanicValue.err GoError.ErrNotFunc) ∧
      Once e v = Except.error (PanicValue.err GoError.ErrNotFunc) ∧
      Off e v = Except.error (PanicValue.err GoError.ErrNotFunc)) ∧
    ((reflectValueOf v).Kind ≠ Kind.Func → e.Recoverer = true →
      (On e v).map Prod.snd =
        Except.ok [{ listener := v, err := some GoError.ErrNotFunc }] ∧
      (Once e v).map Prod.snd =
        Except.ok [{ listener := v, err := some GoError.ErrNotFunc }] ∧
      (Off e v).map Prod.snd =
        Except.ok [{ listener := v, err := some GoError.ErrNotFunc }]) ∧
    ((reflectValueOf v).Kind = Kind.Func →
      (On e v).map Prod.snd = Except.ok [] ∧
      (Once e v).map Prod.snd = Except.ok [] ∧
      (Off e v).map Prod.snd = Except.ok []) := by
  refine ⟨?_, ?_, ?_⟩
  · intro hk hr
    simp [On, Once, Off, addListener, hk, hr]
  · intro hk hr
    simp [On, Once, Off, addListener, hk, hr, Except.map]
  · intro hk
    simp [On, Once, Off, addListener, hk, Except.map]

/-- Witness of C5: the integer 5 of `TestEventPanic` and `TestEventRecoverer`,
without and with a recovery hook. -/
theorem C5_non_function_argument_policy_witness :
    (On (New false) (some (GoValue.int 5)) = Except.error (PanicValue.err GoError.ErrNotFunc) ∧
      Once (New false) (some (GoValue.int 5)) =
        Except.error (PanicValue.err GoError.ErrNotFunc) ∧
      Off (New false) (some (GoValue.int 5)) =
        Except.error (PanicValue.err GoError.ErrNotFunc)) ∧
    ((On (New true) (some (GoValue.int 5))).map Prod.snd =
        Except.ok [{ listener := some (GoValue.int 5), err := some GoError.ErrNotFunc }] ∧
      (Once (New true) (some (GoValue.int 5))).map Prod.snd =
        Except.ok [{ listener := some (GoValue.int 5), err := some GoError.ErrNotFunc }] ∧
      (Off (New true) (some (GoValue.int 5))).map Prod.snd =
        Except.ok [{ listener := some (GoValue.int 5), err := some GoError.ErrNotFunc }]) :=
  ⟨(C5_non_function_argument_policy (New false) (some (GoValue.int 5))).1 (by decide) rfl,
    (C5_non_function_argument_policy (New true) (some (GoValue.int 5))).2.1 (by decide) rfl⟩

/-- C6 (the code at the failing input): with a recovery hook configured, `On(5)`
calls the hook and then stores the integer 5, which is not a function, as a key
of `funcs`; without a hook the same call panics and leaves `funcs` empty.  In
the same way `On(nil)` with a hook stores the zero `reflect.Value`, and the
goroutine that a trigger spawns for this key ends the program: `fn.Interface()`
panics inside the deferred function, so the hook is not called. -/
theorem C6_On_non_function_with_hook_inserts_key :
    (step (New true) (Op.On (some (GoValue.int 5)))).2.hookCalls =
        [{ listener := some (GoValue.int 5), err := some GoError.ErrNotFunc }] ∧
      (step (New true) (Op.On (some (GoValue.int 5)))).1.funcs.keys =
        [RValue.valid (GoValue.int 5)] ∧
      (RValue.valid (GoValue.int 5)).Kind ≠ Kind.Func ∧
      (step (New false) (Op.On (some (GoValue.int 5)))).2.panic =
        some (PanicValue.err GoError.ErrNotFunc) ∧
      (step (New false) (Op.On (some (GoValue.int 5)))).1.funcs.keys = [] ∧
      (step (New true) (Op.On none)).1.funcs.keys = [RValue.invalid] ∧
      goroutine true (fun _ _ => none) (Task.mk RValue.invalid true []) =
        [Action.call RValue.invalid [], Action.wgDone,
          Action.crash
            (PanicValue.msg "reflect: call of reflect.Value.Interface on zero Value")] := by
  decide

/-- C10: `Off(f)` for a function `f` that is not a key of `funcs` returns
without a panic and without a hook call and leaves the state exactly as it was;
this is the case after an earlier `Off(f)` and after the trigger that fired `f`
as a once-listener; and `Off` of any value leaves every entry under another key
unchanged. -/
theorem C10_off_of_absent_listener_is_noop
    (e : Event) (f : Iface) (hf : (reflectValueOf f).Kind = Kind.Func) :
    (reflectValueOf f ∉ e.funcs → Off e f = Except.ok (e, [])) ∧
    Off (step e (Op.Off f)).1 f = Except.ok ((step e (Op.Off f)).1, []) ∧
    (∀ op : Op, op.isTrigger = true → e.funcs.lookup (reflectValueOf f) = some true →
      Off (step e op).1 f = Except.ok ((step e op).1, [])) ∧
    (∀ (l : Iface) (k : RValue), k ≠ reflectValueOf l →
      (step e (Op.Off l)).1.funcs.lookup k = e.funcs.lookup k) := by
  refine ⟨Off_absent e f hf, ?_, ?_, ?_⟩
  · apply Off_absent _ f hf
    rw [← AList.lookup_eq_none, step_lookup_Off]
    simp [hf]
  · intro op hop h
    apply Off_absent _ f hf
    rw [← AList.lookup_eq_none, step_trigger_lookup e op hop, h]
    simp
  · intro l k hk
    rw [step_lookup_Off]
    split_ifs <;> rfl

/-- Witness of C10: `Off` of a function on a new `Event`, where nothing is
registered. -/
theorem C10_off_of_absent_listener_is_noop_witness :
    Off (New true) (plainListener 1) = Except.ok (New true, []) :=
  (C10_off_of_absent_listener_is_noop (New true) (plainListener 1) (by decide)).1
    (AList.not_mem_empty _)

/-- C8: for a listener function with `n` declared parameters and an argument
list of length `n`, the loop of the goroutine returns a list `values` of length
`n`, `fn.Call` is called with it, and at each position `i` it holds the zero
value of the `i`-th declared parameter type when argument `i` is nil and
argument `i` itself otherwise.  For `TestEventArgs` the values are `int64(2)`,
`"Hallo Welt"` and the zero value of `interface{}`. -/
theorem C8_binder_substitutes_zero_value_for_nil
    (bodies : Bodies) (ptr : Nat) (ins : List GoType) (variadic : Option GoType)
    (wait : Bool) (arguments : List Iface)
    (hlen : arguments.length = (paramTypes ins variadic).length) :
    (∃ values : List GoValue,
      bindArguments (RValue.valid (GoValue.func ptr ins variadic)) arguments =
        Except.ok values ∧
      (invoke bodies
          (Task.mk (RValue.valid (GoValue.func ptr ins variadic)) wait arguments)).1 =
        [Action.call (RValue.valid (GoValue.func ptr ins variadic)) values] ∧
      values.length = (paramTypes ins variadic).length ∧
      (∀ (i : Nat) (t : GoType), arguments[i]? = some none →
        (paramTypes ins variadic)[i]? = some t → values[i]? = some (zeroValue t)) ∧
      (∀ (i : Nat) (v : GoValue), arguments[i]? = some (some v) → values[i]? = some v)) ∧
    bindArguments argsListener argsOfTest =
      Except.ok [GoValue.int64 2, GoValue.str "Hallo Welt", zeroValue GoType.iface] := by
  constructor
  · have h := bindFrom_spec ptr ins variadic arguments 0 [] (by omega)
    simp only [List.drop_zero, List.nil_append] at h
    refine ⟨_, h, ?_, ?_, ?_, ?_⟩
    · simp only [invoke, bindArguments, h]
    · simp [List.length_zipWith, hlen]
    · intro i t ha ht
      simp [List.getElem?_zipWith, ha, ht]
    · intro i v ha
      have hi : i < (paramTypes ins variadic).length := by
        rw [← hlen]
        exact (List.getElem?_eq_some.mp ha).1
      simp [List.getElem?_zipWith, ha, List.getElem?_eq_getElem hi]
  · rfl

/-- Witness of C8: the listener and the arguments of `TestEventArgs`. -/
theorem C8_binder_substitutes_zero_value_for_nil_witness :
    (∃ values : List GoValue,
      bindArguments argsListener argsOfTest = Except.ok values ∧
      (invoke (fun _ _ => none) (Task.mk argsListener true argsOfTest)).1 =
        [Action.call argsListener values] ∧
      values.length = 3 ∧
      (∀ (i : Nat) (t : GoType), argsOfTest[i]? = some none →
        [GoType.int64, GoType.string, GoType.iface][i]? = some t →
          values[i]? = some (zeroValue t)) ∧
      (∀ (i : Nat) (v : GoValue), argsOfTest[i]? = some (some v) → values[i]? = some v)) :=
  (C8_binder_substitutes_zero_value_for_nil (fun _ _ => none) 1
    [GoType.int64, GoType.string, GoType.iface] none true argsOfTest (by decide)).1

/-- C9: in `TriggerWait` the calling thread first sets the counter by `wg.Add`
to exactly the number of goroutines it then spawns, and waits last; every
goroutine performs `wg.Done()` exactly once, after its listener call and its
hook call; so in every state that any interleaving of the threads reaches, the
counter is not negative, from the `wg.Add` on it is the number of goroutines
not yet spawned or not yet finished, and when `wg.Wait()` has returned every
goroutine of the call has been spawned and is finished.  In the situation of
`TestEvent` the wait does not pass while goroutines are unfinished and passes
after the last one. -/
theorem C9_TriggerWait_returns_after_all_listeners_finished
    (e : Event) (ro : RangeOrder) (arguments : List Iface) (bodies : Bodies)
    (schedule : List Nat) :
    (TriggerWait e ro arguments).2 =
      Action.wgAdd (spawned (TriggerWait e ro arguments).2).length ::
        ((spawned (TriggerWait e ro arguments).2).map Action.spawn ++ [Action.wgWait]) ∧
    (∀ t ∈ spawned (TriggerWait e ro arguments).2,
      ∃ pre post, goroutine e.Recoverer bodies t = pre ++ Action.wgDone :: post ∧
        (∀ a ∈ pre, a.isCallOrHook = true) ∧ (∀ a ∈ post, a.isCrash = true)) ∧
    0 ≤ (runSchedule e.Recoverer bodies (dispatch (TriggerWait e ro arguments).2)
      schedule).counter ∧
    (Action.wgAdd (spawned (TriggerWait e ro arguments).2).length ∈
        (runSchedule e.Recoverer bodies (dispatch (TriggerWait e ro arguments).2)
          schedule).log →
      (runSchedule e.Recoverer bodies (dispatch (TriggerWait e ro arguments).2)
          schedule).counter =
        (((spawned (runSchedule e.Recoverer bodies (dispatch (TriggerWait e ro arguments).2)
            schedule).caller).length +
          ((runSchedule e.Recoverer bodies (dispatch (TriggerWait e ro arguments).2)
            schedule).goroutines.filter unfinished).length : Nat) : Int)) ∧
    ((runSchedule e.Recoverer bodies (dispatch (TriggerWait e ro arguments).2)
        schedule).caller = [] →
      (runSchedule e.Recoverer bodies (dispatch (TriggerWait e ro arguments).2)
          schedule).goroutines.length = (spawned (TriggerWait e ro arguments).2).length ∧
        ∀ g ∈ (runSchedule e.Recoverer bodies (dispatch (TriggerWait e ro arguments).2)
          schedule).goroutines, unfinished g = false) ∧
    ((runSchedule false (fun _ _ => none)
        (dispatch (TriggerWait (run (New false) threeOnTwoOnce).1 listOrder []).2)
        [0, 0, 0, 0, 0, 0, 1, 1, 2, 2, 3, 3, 4, 4, 5, 0]).caller = [Action.wgWait] ∧
      (runSchedule false (fun _ _ => none)
        (dispatch (TriggerWait (run (New false) threeOnTwoOnce).1 listOrder []).2)
        [0, 0, 0, 0, 0, 0, 1, 1, 2, 2, 3, 3, 4, 4, 5, 0, 5, 0]).caller = []) := by
  have hacts := TriggerWait_actions e ro arguments
  have hw := spawned_TriggerWait_wait e ro arguments
  generalize htasks : spawned (TriggerWait e ro arguments).2 = tasks at hacts hw ⊢
  rw [hacts]
  have hcounter := waitDispatch_counter e.Recoverer bodies tasks hw schedule
  have hret := waitDispatch_returned e.Recoverer bodies tasks hw schedule
  have hstart := reach_started e.Recoverer bodies
    (Action.wgAdd tasks.length :: (tasks.map Action.spawn ++ [Action.wgWait])) schedule
  have hsp := reach_spawned e.Recoverer bodies
    (Action.wgAdd tasks.length :: (tasks.map Action.spawn ++ [Action.wgWait])) schedule
  refine ⟨rfl, fun t ht => goroutine_shape e.Recoverer bodies t (hw t ht), hcounter.1, ?_, ?_, ?_⟩
  · intro hlog
    apply hcounter.2
    rcases hstart with ⟨_, _, hnil⟩ | hlt
    · rw [hnil] at hlog
      simp at hlog
    · simpa using hlt
  · intro hc
    refine ⟨?_, hret hc⟩
    rw [hc] at hsp
    simpa [spawned, spawned_spawns] using hsp
  · constructor <;> decide

/-- With a recovery hook installed and only valid values as keys of `funcs`
(every function is one), for every `Trigger` or `TriggerWait` and every
goroutine it spawns: when the invocation panics, in the loop that binds the
arguments, in `fn.Call` on an argument count or type mismatch, or in the
listener body, the goroutine calls the hook exactly once, with the listener
itself and the non-nil error `fmt.Errorf("%v", r)`, and then ends normally with
its `wg.Done()`; when the invocation returns it makes no hook call; no
interleaving of the goroutines ends the program, so no goroutine is cut off by
the failure of another; and when the dispatch is over the hook calls made are
exactly those of the goroutines, each once. -/
theorem recovered_dispatch_of_valid_keys
    (e : Event) (hr : e.Recoverer = true)
    (hvalid : ∀ k ∈ e.funcs.keys, k ≠ RValue.invalid)
    (op : Op) (hop : op.isTrigger = true) (bodies : Bodies) :
    (∀ t ∈ spawned (step e op).2.actions, ∀ p, (invoke bodies t).2 = some p →
      ∃ v, t.fn = RValue.valid v ∧ t.fn.Interface = Except.ok (some v) ∧
        goroutine e.Recoverer bodies t =
          (invoke bodies t).1 ++
            Action.hook { listener := some v, err := some (GoError.errorf (formatPanic p)) } ::
              (if t.wait = true then [Action.wgDone] else [])) ∧
    (∀ t ∈ spawned (step e op).2.actions, (invoke bodies t).2 = none →
      goroutine e.Recoverer bodies t =
        (invoke bodies t).1 ++ (if t.wait = true then [Action.wgDone] else [])) ∧
    (∀ schedule : List Nat,
      (runSchedule e.Recoverer bodies (dispatch (step e op).2.actions) schedule).crashed =
        none) ∧
    (∀ schedule : List Nat,
      (runSchedule e.Recoverer bodies (dispatch (step e op).2.actions) schedule).finished =
          true →
        (hookCalls
          (runSchedule e.Recoverer bodies (dispatch (step e op).2.actions) schedule).log).Perm
          (taskHookCalls e.Recoverer bodies (spawned (step e op).2.actions))) ∧
    (∀ schedule : List Nat, ∃ more : List Nat,
      (runSchedule e.Recoverer bodies (dispatch (step e op).2.actions)
        (schedule ++ more)).finished = true) ∧
    (∀ schedule : List Nat,
      (runSchedule e.Recoverer bodies (dispatch (step e op).2.actions) schedule).finished =
          true →
        ∀ t ∈ spawned (step e op).2.actions, ∀ a ∈ goroutine e.Recoverer bodies t,
          a ∈ (runSchedule e.Recoverer bodies (dispatch (step e op).2.actions)
            schedule).log) := by
  rw [hr]
  refine ⟨?_, ?_, ?_, ?_, ?_, ?_⟩
  · intro t ht p hp
    obtain ⟨v, hv⟩ := valid_of_ne_invalid t.fn
      (hvalid _ (step_trigger_spawned_fn e op hop t ht))
    refine ⟨v, hv, by rw [hv]; rfl, ?_⟩
    rw [goroutine_recovered bodies t v hv, hp]
    simp
  · intro t ht hnone
    obtain ⟨v, hv⟩ := valid_of_ne_invalid t.fn
      (hvalid _ (step_trigger_spawned_fn e op hop t ht))
    rw [goroutine_recovered bodies t v hv, hnone]
    simp
  · intro schedule
    exact trigger_never_crashes e hvalid op hop bodies schedule
  · intro schedule hfin
    exact finished_hookCalls true bodies _
      (hookCalls_eq_nil _ (fun a ha => (step_trigger_actions e op hop a ha).1)) schedule hfin
  · intro schedule
    exact trigger_can_finish e hvalid op hop bodies schedule
  · intro schedule hfin t ht a ha
    exact finished_performed true bodies _ schedule hfin t ht a ha

/-- An instance: the trigger of `TestEventRecoverer`, `TriggerWait(5)`, with a
listener without parameters and a listener with one `int` parameter: the
goroutine of the first one calls the hook once, with the listener and the
error of the argument count mismatch; the program does not end, and the hook
calls of a complete run are those of the goroutines. -/
theorem recovered_dispatch_of_valid_keys_example :
    (∃ v, reflectValueOf (plainListener 1) = RValue.valid v ∧
      (reflectValueOf (plainListener 1)).Interface = Except.ok (some v) ∧
      goroutine recovererEvent.Recoverer (fun _ _ => none)
          (Task.mk (reflectValueOf (plainListener 1)) true [some (GoValue.int 5)]) =
        (invoke (fun _ _ => none)
          (Task.mk (reflectValueOf (plainListener 1)) true [some (GoValue.int 5)])).1 ++
          Action.hook { listener := some v, err := some (GoError.errorf (formatPanic
            (PanicValue.msg "reflect: Call with too many input arguments"))) } ::
            (if (Task.mk (reflectValueOf (plainListener 1)) true
                [some (GoValue.int 5)]).wait = true then [Action.wgDone] else [])) ∧
    (runSchedule recovererEvent.Recoverer (fun _ _ => none)
      (dispatch (step recovererEvent
        (Op.TriggerWait listOrder [some (GoValue.int 5)])).2.actions)
      [0, 0, 0, 1, 1, 2, 2, 2, 0]).crashed = none ∧
    (hookCalls (runSchedule recovererEvent.Recoverer (fun _ _ => none)
      (dispatch (step recovererEvent
        (Op.TriggerWait listOrder [some (GoValue.int 5)])).2.actions)
      [0, 0, 0, 1, 1, 2, 2, 2, 0]).log).Perm
      (taskHookCalls recovererEvent.Recoverer (fun _ _ => none)
        (spawned (step recovererEvent
          (Op.TriggerWait listOrder [some (GoValue.int 5)])).2.actions)) :=
  ⟨(recovered_dispatch_of_valid_keys recovererEvent (by decide) (by decide)
      (Op.TriggerWait listOrder [some (GoValue.int 5)]) (by decide) (fun _ _ => none)).1
      (Task.mk (reflectValueOf (plainListener 1)) true [some (GoValue.int 5)]) (by decide)
      (PanicValue.msg "reflect: Call with too many input arguments") (by decide),
    (recovered_dispatch_of_valid_keys recovererEvent (by decide) (by decide)
      (Op.TriggerWait listOrder [some (GoValue.int 5)]) (by decide) (fun _ _ => none)).2.2.1
      [0, 0, 0, 1, 1, 2, 2, 2, 0],
    (recovered_dispatch_of_valid_keys recovererEvent (by decide) (by decide)
      (Op.TriggerWait listOrder [some (GoValue.int 5)]) (by decide) (fun _ _ => none)).2.2.2.1
      [0, 0, 0, 1, 1, 2, 2, 2, 0] (by decide)⟩

/-- C7 (the code at the failing input): a recovery hook is installed and
`On(nil)`, `On(f)`, `On(g)` have returned without a panic, so the zero
`reflect.Value` is a key of `funcs` next to the functions `f` and `g`.  In
`TriggerWait(5)` the invocation of `f`, which has no parameter, fails.  When the
goroutine of the zero `Value` runs first, `fn.Interface()` panics inside its
deferred function and the program ends: the hook has been called for no
invocation, `g` has not been called, and no later step changes that. -/
theorem C7_zero_value_key_ends_program_before_hook_call :
    ((run (New true) zeroKeyCalls).2.map (fun o => o.panic) = [none, none, none]) ∧
    zeroKeyEvent.Recoverer = true ∧
    scheduled (TriggerWait zeroKeyEvent listOrder [some (GoValue.int 5)]).2 =
      [reflectValueOf intListener, reflectValueOf (plainListener 1), RValue.invalid] ∧
    (invoke (fun _ _ => none)
      (Task.mk (reflectValueOf (plainListener 1)) true [some (GoValue.int 5)])).2 =
        some (PanicValue.msg "reflect: Call with too many input arguments") ∧
    (runSchedule zeroKeyEvent.Recoverer (fun _ _ => none)
      (dispatch (TriggerWait zeroKeyEvent listOrder [some (GoValue.int 5)]).2)
      [0, 0, 0, 0, 3, 3, 3]).crashed =
        some (PanicValue.msg "reflect: call of reflect.Value.Interface on zero Value") ∧
    (∀ more : List Nat,
      hookCalls (runSchedule zeroKeyEvent.Recoverer (fun _ _ => none)
        (dispatch (TriggerWait zeroKeyEvent listOrder [some (GoValue.int 5)]).2)
        ([0, 0, 0, 0, 3, 3, 3] ++ more)).log = [] ∧
      Action.call (reflectValueOf intListener) [GoValue.int 5] ∉
        (runSchedule zeroKeyEvent.Recoverer (fun _ _ => none)
          (dispatch (TriggerWait zeroKeyEvent listOrder [some (GoValue.int 5)]).2)
          ([0, 0, 0, 0, 3, 3, 3] ++ more)).log ∧
      (runSchedule zeroKeyEvent.Recoverer (fun _ _ => none)
        (dispatch (TriggerWait zeroKeyEvent listOrder [some (GoValue.int 5)]).2)
        ([0, 0, 0, 0, 3, 3, 3] ++ more)).caller = [Action.wgWait]) := by
  refine ⟨by decide, by decide, by decide, by decide, by decide, ?_⟩
  intro more
  rw [runSchedule_append, runSchedule_crashed _ _
    (PanicValue.msg "reflect: call of reflect.Value.Interface on zero Value") more _
    (by decide)]
  exact ⟨by decide, by decide, by decide⟩

end EventPkg
